import Mathlib

/-!
# Verification of the `sam3_segmenter` mask post-processing pipeline

This file gives a shallow embedding of the mask post-processing core of the
repository (`src/sam3_segmenter/utils/mask_processing.py` and
`src/sam3_segmenter/utils/geometry.py`) and proves or refutes the claims of
the specification about it.

Modelling conventions:
* A 2-D binary mask (`numpy` array of dtype `bool`, or the equivalent `uint8`
  0/255 image) is a `Mask`: an explicit height, width, and a row-major list of
  rows of `Bool`.  The uint8 value 255 corresponds to `true`, 0 to `false`;
  the dtype conversions in the Python code are the identity on this model.
* Scores, thresholds, ratios, and box coordinates (Python floats) are modelled
  as rationals `ℚ`.
* OpenCV primitives used by the code are modelled by their documented pixel
  semantics: morphological dilation/erosion with the elliptical structuring
  element of `cv2.getStructuringElement(MORPH_ELLIPSE, (k, k))` and the
  default border handling of `cv2.morphologyEx` (for dilation, pixels outside
  the image act as background; for erosion they act as foreground);
  `cv2.floodFill` paints the 4-connected equal-value component of the seed;
  `cv2.findContours`/`convexHull`/`fillConvexPoly` (as composed by
  `_fill_with_convex_hull`) produce the lattice points of the convex hull of
  the foreground pixels; `cv2.connectedComponentsWithStats` labels 8-connected
  components in raster-scan order of their first pixel.
* Python's stable `list.sort`/`sorted` with a score key is modelled by sorting
  with the equivalent total order "by key, ties by original index".
-/

/-- A 2-D binary mask: height, width, and row-major `Bool` data.
Models a 2-D numpy array of dtype bool (equivalently a 0/255 `uint8` image). -/
structure Mask where
  h : Nat
  w : Nat
  data : List (List Bool)
deriving DecidableEq, Repr

namespace Mask

/-- Pixel access, out-of-range reads as background (used only in range). -/
def get (m : Mask) (y x : Nat) : Bool :=
  (m.data.getD y []).getD x false

/-- Build an `h × w` mask from a pixel function. -/
def ofFn (h w : Nat) (f : Nat → Nat → Bool) : Mask :=
  ⟨h, w, (List.range h).map fun y => (List.range w).map fun x => f y x⟩

/-- Foreground pixel count: models `np.sum(mask > 0)`. -/
def count (m : Mask) : Nat :=
  (m.data.map (List.countP id)).sum

/-- `np.zeros(shape, dtype=bool)` / `np.zeros_like`. -/
def zeros (h w : Nat) : Mask := ofFn h w fun _ _ => false

theorem get_ofFn (h w : Nat) (f : Nat → Nat → Bool) (y x : Nat) :
    (ofFn h w f).get y x = if y < h ∧ x < w then f y x else false := by
  show ((((List.range h).map fun y => (List.range w).map fun x => f y x).getD y []).getD x
      false) = _
  have hrow : (((List.range h).map fun y => (List.range w).map fun x => f y x).getD y []) =
      if y < h then (List.range w).map (fun x => f y x) else [] := by
    rcases Nat.lt_or_ge y h with hy | hy
    · rw [List.getD_eq_getElem?_getD, List.getElem?_map, List.getElem?_range hy]
      simp [hy]
    · rw [List.getD_eq_getElem?_getD, List.getElem?_eq_none (by simpa using hy)]
      simp; omega
  rw [hrow]
  rcases Nat.lt_or_ge y h with hy | hy
  · rw [if_pos hy]
    rcases Nat.lt_or_ge x w with hx | hx
    · rw [List.getD_eq_getElem?_getD, List.getElem?_map, List.getElem?_range hx]
      simp [hy, hx]
    · rw [List.getD_eq_getElem?_getD, List.getElem?_eq_none (by simpa using hx)]
      simp; omega
  · rw [if_neg (by omega)]
    simp; omega

@[simp] theorem ofFn_h (h w : Nat) (f : Nat → Nat → Bool) : (ofFn h w f).h = h := rfl

@[simp] theorem ofFn_w (h w : Nat) (f : Nat → Nat → Bool) : (ofFn h w f).w = w := rfl

theorem get_ofFn_of_lt {h w y x : Nat} (f : Nat → Nat → Bool)
    (hy : y < h) (hx : x < w) : (ofFn h w f).get y x = f y x := by
  rw [get_ofFn]; simp [hy, hx]

end Mask

/-! ## Morphological operations

Model of `cv2.getStructuringElement(cv2.MORPH_ELLIPSE, (k, k))` and of
`cv2.morphologyEx` with `MORPH_DILATE` / `MORPH_ERODE` / `MORPH_CLOSE` /
`MORPH_OPEN` at OpenCV's default border handling (`morphologyDefaultBorderValue`):
out-of-image pixels act as background for dilation and as foreground for
erosion. -/

/-- Integer square root (largest `i` with `i * i ≤ n`), written with
structural recursion so that it evaluates by kernel reduction. -/
def natSqrt (n : Nat) : Nat :=
  Nat.findGreatest (fun i => i * i ≤ n) n

/-- Half-width of row `dyAbs` of the `(2r+1) × (2r+1)` elliptical structuring
element: OpenCV computes `saturate_cast<int>(c * sqrt((r*r - dy*dy) * inv_r2))`
with `r = c = k/2`, i.e. the nearest integer to `sqrt(r^2 - dy^2)` (no
rounding ties exist, since `n + 1/2` never squares to an integer). -/
def ellipseHalfWidth (r dyAbs : Nat) : Nat :=
  (natSqrt (4 * (r * r - dyAbs * dyAbs)) + 1) / 2

/-- All offsets in the `(2r+1) × (2r+1)` square, as `(dx, dy)` pairs. -/
def squareOffsets (r : Nat) : List (Int × Int) :=
  (List.range (2 * r + 1)).flatMap fun i =>
    (List.range (2 * r + 1)).map fun j => (((j : Int) - r), ((i : Int) - r))

/-- Model of `cv2.getStructuringElement(cv2.MORPH_ELLIPSE, (k, k))` (odd `k`),
as the set of offsets of its nonzero cells relative to the anchor. -/
def ellipseKernel (k : Nat) : List (Int × Int) :=
  (squareOffsets (k / 2)).filter fun o =>
    o.2.natAbs ≤ k / 2 && o.1.natAbs ≤ ellipseHalfWidth (k / 2) o.2.natAbs

/-- Pixel access at signed coordinates; out of range reads as background. -/
def Mask.getZ (m : Mask) (y x : Int) : Bool :=
  if 0 ≤ y ∧ 0 ≤ x then m.get y.toNat x.toNat else false

/-- Is `(y, x)` inside an `h × w` image? -/
def inDom (h w : Nat) (y x : Int) : Bool :=
  decide (0 ≤ y ∧ y < (h : Int) ∧ 0 ≤ x ∧ x < (w : Int))

/-- `cv2.dilate` with structuring element `K` (out-of-image = background). -/
def dilate (K : List (Int × Int)) (m : Mask) : Mask :=
  Mask.ofFn m.h m.w fun y x =>
    K.any fun o => m.getZ ((y : Int) + o.2) ((x : Int) + o.1)

/-- `cv2.erode` with structuring element `K` (out-of-image = foreground). -/
def erode (K : List (Int × Int)) (m : Mask) : Mask :=
  Mask.ofFn m.h m.w fun y x =>
    K.all fun o =>
      !(inDom m.h m.w ((y : Int) + o.2) ((x : Int) + o.1)) ||
        m.getZ ((y : Int) + o.2) ((x : Int) + o.1)

/-- `cv2.morphologyEx(m, cv2.MORPH_CLOSE, ellipse k)`. -/
def morphClose (k : Nat) (m : Mask) : Mask :=
  erode (ellipseKernel k) (dilate (ellipseKernel k) m)

/-- Signed cross product `(a - o) × (b - o)`; points are `(x, y)`. -/
def cross2 (o a b : Int × Int) : Int :=
  (a.1 - o.1) * (b.2 - o.2) - (a.2 - o.2) * (b.1 - o.1)

/-- Is `p` in the convex hull of `{a, b, c}`?  All three edge cross products
have a common sign (degenerate triangles reduce to collinearity), and `p` lies
in the bounding box of the three points (which settles the degenerate cases
exactly). -/
def inTriangle (p a b c : Int × Int) : Bool :=
  let d1 := cross2 a b p
  let d2 := cross2 b c p
  let d3 := cross2 c a p
  ((0 ≤ d1 && 0 ≤ d2 && 0 ≤ d3) || (d1 ≤ 0 && d2 ≤ 0 && d3 ≤ 0)) &&
    (min a.1 (min b.1 c.1) ≤ p.1 && p.1 ≤ max a.1 (max b.1 c.1) &&
     min a.2 (min b.2 c.2) ≤ p.2 && p.2 ≤ max a.2 (max b.2 c.2))

/-- Is `p` a lattice point of the convex hull of `pts`?  By Carathéodory's
theorem in the plane this is membership in some triangle over `pts`. -/
def inHull (pts : List (Int × Int)) (p : Int × Int) : Bool :=
  pts.any fun a => pts.any fun b => pts.any fun c => inTriangle p a b c

/-- The foreground pixels of a mask as `(x, y)` points, in raster order. -/
def fgPoints (m : Mask) : List (Int × Int) :=
  (List.range m.h).flatMap fun y =>
    (List.range m.w).filterMap fun x =>
      if m.get y x then some ((x : Int), (y : Int)) else none

/-- Model of `_fill_with_convex_hull`: find all foreground contours (empty
contours ⇒ return the input), combine their points, and fill the convex hull
(`cv2.convexHull` + `cv2.fillConvexPoly`).  The filled region is modelled as
the lattice points of the convex hull of the foreground pixels — the hull of
all contour points equals the hull of all foreground pixels, since every
foreground pixel lies inside its component's external contour. -/
def fillWithConvexHull (m : Mask) : Mask :=
  if fgPoints m = [] then m
  else Mask.ofFn m.h m.w fun y x => inHull (fgPoints m) ((x : Int), (y : Int))

/-- A grid of `uint8` pixel values (used by the flood-fill model). -/
structure NatGrid where
  h : Nat
  w : Nat
  data : List (List Nat)
deriving DecidableEq, Repr

namespace NatGrid

def get (g : NatGrid) (y x : Nat) : Nat :=
  (g.data.getD y []).getD x 0

def ofFn (h w : Nat) (f : Nat → Nat → Nat) : NatGrid :=
  ⟨h, w, (List.range h).map fun y => (List.range w).map fun x => f y x⟩

theorem getN_ofFn (h w : Nat) (f : Nat → Nat → Nat) (y x : Nat) :
    (ofFn h w f).get y x = if y < h ∧ x < w then f y x else 0 := by
  show ((((List.range h).map fun y => (List.range w).map fun x => f y x).getD y []).getD x
      0) = _
  have hrow : (((List.range h).map fun y => (List.range w).map fun x => f y x).getD y []) =
      if y < h then (List.range w).map (fun x => f y x) else [] := by
    rcases Nat.lt_or_ge y h with hy | hy
    · rw [List.getD_eq_getElem?_getD, List.getElem?_map, List.getElem?_range hy]
      simp [hy]
    · rw [List.getD_eq_getElem?_getD, List.getElem?_eq_none (by simpa using hy)]
      simp; omega
  rw [hrow]
  rcases Nat.lt_or_ge y h with hy | hy
  · rw [if_pos hy]
    rcases Nat.lt_or_ge x w with hx | hx
    · rw [List.getD_eq_getElem?_getD, List.getElem?_map, List.getElem?_range hx]
      simp [hy, hx]
    · rw [List.getD_eq_getElem?_getD, List.getElem?_eq_none (by simpa using hx)]
      rw [if_neg (by omega)]
      simp
  · rw [if_neg (by omega), if_neg (by omega)]
    simp

@[simp] theorem ofFnN_h (h w : Nat) (f : Nat → Nat → Nat) : (ofFn h w f).h = h := rfl

@[simp] theorem ofFnN_w (h w : Nat) (f : Nat → Nat → Nat) : (ofFn h w f).w = w := rfl

end NatGrid

/-- One step of the flood-fill frontier expansion: a pixel joins the visited
set if it has value `sv` and a 4-neighbour is already visited. -/
def floodStep (g : NatGrid) (sv : Nat) (vis : Mask) : Mask :=
  Mask.ofFn vis.h vis.w fun y x =>
    vis.get y x ||
      (g.get y x == sv &&
        ((decide (0 < y) && vis.get (y - 1) x) || vis.get (y + 1) x ||
         (decide (0 < x) && vis.get y (x - 1)) || vis.get y (x + 1)))

/-- The 4-connected equal-value component of `seed` (row, column), computed by
saturating the frontier expansion. -/
def floodReach (g : NatGrid) (seed : Nat × Nat) : Mask :=
  let sv := g.get seed.1 seed.2
  (floodStep g sv)^[g.h * g.w]
    (Mask.ofFn g.h g.w fun y x => y == seed.1 && x == seed.2)

/-- Model of `cv2.floodFill(img, mask, seed, 128)`: paint the 4-connected
equal-value component of the seed with 128. -/
def floodPaint (g : NatGrid) (seed : Nat × Nat) : NatGrid :=
  let r := floodReach g seed
  NatGrid.ofFn g.h g.w fun y x => if r.get y x then 128 else g.get y x

/-- Model of `_fill_with_flood_fill`: flood-fill 128 from all four corners,
then everything still 0 becomes 255 and everything 128 becomes 0; a pixel is
foreground in the result iff its final value is not 128. -/
def fillWithFloodFill (m : Mask) : Mask :=
  let g0 := NatGrid.ofFn m.h m.w fun y x => if m.get y x then 255 else 0
  let g1 := floodPaint g0 (0, 0)
  let g2 := floodPaint g1 (0, m.w - 1)
  let g3 := floodPaint g2 (m.h - 1, 0)
  let g4 := floodPaint g3 (m.h - 1, m.w - 1)
  Mask.ofFn m.h m.w fun y x => g4.get y x != 128

/-- `fill_all_holes(mask, use_convex_hull)` from `mask_processing.py`. -/
def fillAllHoles (m : Mask) (useConvexHull : Bool) : Mask :=
  if m.h * m.w = 0 then m
  else if useConvexHull then fillWithConvexHull m
  else fillWithFloodFill m

/-! ## Connected components (`cv2.connectedComponentsWithStats`, 8-connectivity)

A foreground pixel's label is modelled as `1 +` the smallest raster index in
its 8-connected component (0 = background), computed by saturating a
min-propagation step.  This reproduces `cv2`'s labelling up to renaming and
keeps `cv2`'s label order: labels ordered by the raster position of their
first pixel. -/

def NatGrid.getZ (g : NatGrid) (y x : Int) : Nat :=
  if 0 ≤ y ∧ 0 ≤ x then g.get y.toNat x.toNat else 0

/-- The eight neighbour offsets, as `(dx, dy)`. -/
def nbhd8 : List (Int × Int) :=
  [(-1, -1), (0, -1), (1, -1), (-1, 0), (1, 0), (-1, 1), (0, 1), (1, 1)]

def labelInit (m : Mask) : NatGrid :=
  NatGrid.ofFn m.h m.w fun y x => if m.get y x then y * m.w + x + 1 else 0

def labelStep (m : Mask) (g : NatGrid) : NatGrid :=
  NatGrid.ofFn g.h g.w fun y x =>
    if m.get y x then
      nbhd8.foldl
        (fun acc o =>
          let v := g.getZ ((y : Int) + o.2) ((x : Int) + o.1)
          if v ≠ 0 ∧ v < acc then v else acc)
        (g.get y x)
    else 0

def componentLabels (m : Mask) : NatGrid :=
  (labelStep m)^[m.h * m.w] (labelInit m)

/-- Pixel count of the component with label `l` (`stats[..., CC_STAT_AREA]`). -/
def labelArea (g : NatGrid) (l : Nat) : Nat :=
  ((List.range g.h).map fun y =>
    ((List.range g.w).filter fun x => g.get y x == l).length).sum

/-- `keep_largest_component` (2-D core): retain only the component of largest
area; ties keep the first label in `cv2`'s order (strict `>` in the source). -/
def keepLargestComponent (m : Mask) : Mask :=
  if m.h * m.w = 0 then m
  else
    let lg := componentLabels m
    let reps : List Nat := (List.range (m.h * m.w)).filterMap fun i =>
      if lg.get (i / m.w) (i % m.w) == i + 1 then some (i + 1) else none
    match reps with
    | [] => m
    | r0 :: rest =>
      let best := (r0 :: rest).foldl
        (fun acc l => if acc.2 < labelArea lg l then (l, labelArea lg l) else acc) (r0, 0)
      Mask.ofFn m.h m.w fun y x => lg.get y x == best.1

/-- Truncation of a rational toward zero: Python's `int(v)` on a float. -/
def pyInt (q : ℚ) : Int :=
  if 0 ≤ q.num then ((q.num.toNat / q.den : Nat) : Int)
  else -(((-q.num).toNat / q.den : Nat) : Int)

/-- A bounding box `(x1, y1, x2, y2)`. -/
abbrev Box : Type := ℚ × ℚ × ℚ × ℚ

/-- `_fill_with_box`: fill the (margin-expanded, image-clamped) box region. -/
def fillWithBox (m : Mask) (box : Box) (marginRatio : ℚ) : Mask :=
  let x1i := pyInt box.1
  let y1i := pyInt box.2.1
  let x2i := pyInt box.2.2.1
  let y2i := pyInt box.2.2.2
  let mx := pyInt (((x2i - x1i : Int) : ℚ) * marginRatio)
  let my := pyInt (((y2i - y1i : Int) : ℚ) * marginRatio)
  let x1 := max 0 (x1i - mx)
  let y1 := max 0 (y1i - my)
  let x2 := min (m.w : Int) (x2i + mx)
  let y2 := min (m.h : Int) (y2i + my)
  Mask.ofFn m.h m.w fun y x =>
    decide (y1 ≤ (y : Int) ∧ (y : Int) < y2 ∧ x1 ≤ (x : Int) ∧ (x : Int) < x2)

/-- `_fill_with_morphological_closing`: repeated closing with a large
elliptical kernel, then a flood-fill hole pass. -/
def fillWithMorphologicalClosing (m : Mask) (kernelSize iterations : Nat) : Mask :=
  fillWithFloodFill ((morphClose kernelSize)^[iterations] m)

/-- The `fill_method` argument of `postprocess_mask_for_drawings`; any string
other than `"box_fill"` / `"morphological"` selects the convex-hull default. -/
inductive FillMethod where
  | boxFill
  | morphological
  | convexHull
deriving DecidableEq, Repr

/-- Steps 1–3 of `postprocess_mask_for_drawings`: hole filling with the
selected strategy, largest-component cleanup (skipped for `box_fill`), and
closing-based smoothing. -/
def drawingsStages (m : Mask) (keepLargest fillHoles applyMorphology : Bool)
    (morphologyKernel : Nat) (fillMethod : FillMethod) (box : Option Box)
    (morphologyFillKernel : Nat) : Mask :=
  let p1 :=
    if fillHoles then
      match fillMethod, box with
      | FillMethod.boxFill, some b => fillWithBox m b (2 / 100)
      | FillMethod.morphological, _ => fillWithMorphologicalClosing m morphologyFillKernel 3
      | _, _ => fillAllHoles m true
    else m
  let p2 :=
    if keepLargest && !(fillMethod == FillMethod.boxFill) then keepLargestComponent p1
    else p1
  if applyMorphology && decide (0 < morphologyKernel) then morphClose morphologyKernel p2
  else p2

/-- `postprocess_mask_for_drawings` (2-D core; the dtype conversions are the
identity on the `Bool` model): empty-input guards, then the three cleanup
steps, then the minimum-area-ratio guard on the final pixel count. -/
def postprocessMaskForDrawings (m : Mask) (keepLargest fillHoles applyMorphology : Bool)
    (morphologyKernel : Nat) (minAreaRatio : ℚ) (fillMethod : FillMethod)
    (box : Option Box) (morphologyFillKernel : Nat) : Mask :=
  if m.h * m.w = 0 then m
  else if m.count = 0 then m
  else
    let p3 := drawingsStages m keepLargest fillHoles applyMorphology morphologyKernel
      fillMethod box morphologyFillKernel
    if (p3.count : ℚ) < ((m.h * m.w : Nat) : ℚ) * minAreaRatio then Mask.zeros p3.h p3.w
    else p3

/-! ## Geometry (`utils/geometry.py`) -/

/-- `calculate_iou` from `geometry.py`: intersection-over-union of two
`(x1, y1, x2, y2)` boxes, 0 when the intersection or union is degenerate. -/
def calculate_iou (bbox1 bbox2 : Box) : ℚ :=
  let x1i := max bbox1.1 bbox2.1
  let y1i := max bbox1.2.1 bbox2.2.1
  let x2i := min bbox1.2.2.1 bbox2.2.2.1
  let y2i := min bbox1.2.2.2 bbox2.2.2.2
  if x2i ≤ x1i ∨ y2i ≤ y1i then 0
  else
    let intersection := (x2i - x1i) * (y2i - y1i)
    let area1 := (bbox1.2.2.1 - bbox1.1) * (bbox1.2.2.2 - bbox1.2.1)
    let area2 := (bbox2.2.2.1 - bbox2.1) * (bbox2.2.2.2 - bbox2.2.1)
    let union := area1 + area2 - intersection
    if 0 < union then intersection / union else 0

/-! ## Candidate-set operations

Python's stable `sorted(range(n), key=..., reverse=True)` is modelled by
`List.insertionSort` with the total order "higher key first, ties by original
index" — the unique sorted stable permutation. -/

/-- Order for `sorted(range n, key=lambda i: k i, reverse=True)`:
`i` comes before `j` iff `i`'s key is larger, or the keys tie and `i ≤ j`. -/
def descOrder (k : Nat → ℚ) (i j : Nat) : Prop :=
  k j < k i ∨ (k i = k j ∧ i ≤ j)

instance (k : Nat → ℚ) : DecidableRel (descOrder k) := fun _ _ => by
  unfold descOrder; infer_instance

/-- Order for `sorted(range n, key=lambda i: k i)` (ascending, stable). -/
def ascOrder (k : Nat → ℕ) (i j : Nat) : Prop :=
  k i < k j ∨ (k i = k j ∧ i ≤ j)

instance (k : Nat → ℕ) : DecidableRel (ascOrder k) := fun _ _ => by
  unfold ascOrder; infer_instance

/-- Descending stable order with natural-number keys. -/
def descOrderN (k : Nat → ℕ) (i j : Nat) : Prop :=
  k j < k i ∨ (k i = k j ∧ i ≤ j)

instance (k : Nat → ℕ) : DecidableRel (descOrderN k) := fun _ _ => by
  unfold descOrderN; infer_instance

/-- One step of the non-overlap fold: the candidate keeps its unclaimed
pixels and then claims its own full pixel set. -/
def novStep (pairs : List (ℚ × Mask)) (st : Mask × List (Nat × Mask)) (i : Nat) :
    Mask × List (Nat × Mask) :=
  let mask := (pairs.getD i (0, Mask.zeros 0 0)).2
  let adjusted := Mask.ofFn mask.h mask.w fun y x => mask.get y x && !(st.1.get y x)
  let claimed := Mask.ofFn st.1.h st.1.w fun y x => st.1.get y x || mask.get y x
  (claimed, (i, adjusted) :: st.2)

/-- The descending-score (stable) processing order of the non-overlap pass. -/
def novOrder (pairs : List (ℚ × Mask)) : List Nat :=
  (List.range pairs.length).insertionSort
    (descOrder fun i => (pairs.getD i (0, Mask.zeros 0 0)).1)

/-- `apply_non_overlapping_constraints`: process candidates in descending
score order; each mask keeps only pixels not already claimed by an earlier
(higher-scoring) mask, then claims its own full pixel set.  Results are
returned in the original list order; list positions beyond
`len(zip(scores, masks))` keep the `None` placeholder of the source. -/
def applyNonOverlappingConstraints (masks : List Mask) (scores : List ℚ) :
    List (Option Mask) :=
  if masks.length ≤ 1 then masks.map some
  else
    let pairs := scores.zip masks
    let m0 := masks.headD (Mask.zeros 0 0)
    let fold := (novOrder pairs).foldl (novStep pairs) (Mask.zeros m0.h m0.w, [])
    (List.range masks.length).map fun i =>
      (fold.2.find? fun p => p.1 == i).map Prod.snd

/-- The kept original indices of greedy NMS: iterate over candidates in
descending score order and keep a candidate iff its IoU with every
already-kept box is `≤ iou_threshold`.  Models `torchvision.ops.batched_nms`
with a single class id. -/
def nmsStep (boxes : List Box) (iouThreshold : ℚ) (keep : List Nat) (i : Nat) : List Nat :=
  if keep.all fun j =>
      decide (calculate_iou (boxes.getD i (0, 0, 0, 0)) (boxes.getD j (0, 0, 0, 0)) ≤
        iouThreshold)
  then keep ++ [i]
  else keep

def nmsKeep (boxes : List Box) (scores : List ℚ) (iouThreshold : ℚ) : List Nat :=
  let order := (List.range boxes.length).insertionSort
    (descOrder fun i => scores.getD i 0)
  order.foldl (nmsStep boxes iouThreshold) []

/-- `apply_nms_to_masks`: length-0/1 early returns, otherwise select the
candidates kept by NMS, in kept order. -/
def applyNmsToMasks (masks : List Mask) (scores : List ℚ) (boxes : List Box)
    (iouThreshold : ℚ) : List Mask × List ℚ × List Box :=
  if masks.length = 0 then (masks, scores, boxes)
  else if masks.length = 1 then (masks, scores, boxes)
  else
    let keep := nmsKeep boxes scores iouThreshold
    (keep.map fun i => masks.getD i (Mask.zeros 0 0),
     keep.map fun i => scores.getD i 0,
     keep.map fun i => boxes.getD i (0, 0, 0, 0))

/-! ## Edge rejection -/

/-- `is_mask_near_edge`: empty masks are never near an edge; otherwise the
foreground bounding box must come within `edge_tolerance` of a border of the
`(height, width)` image shape. -/
def isMaskNearEdge (m : Mask) (imageShape : Nat × Nat) (edgeTolerance : Nat) : Bool :=
  if m.h * m.w = 0 then false
  else
    let pts := fgPoints m
    if pts.isEmpty then false
    else
      let xmin := (pts.map Prod.fst).foldr min (m.w : Int)
      let xmax := (pts.map Prod.fst).foldr max 0
      let ymin := (pts.map Prod.snd).foldr min (m.h : Int)
      let ymax := (pts.map Prod.snd).foldr max 0
      decide (xmin ≤ (edgeTolerance : Int)) ||
      decide ((imageShape.2 : Int) - edgeTolerance - 1 ≤ xmax) ||
      decide (ymin ≤ (edgeTolerance : Int)) ||
      decide ((imageShape.1 : Int) - edgeTolerance - 1 ≤ ymax)

/-- `filter_edge_masks`: drop every candidate whose mask is near an image
edge; scores and boxes travel with their mask. -/
def filterEdgeMasks (masks : List Mask) (scores : List ℚ) (boxes : List Box)
    (imageShape : Nat × Nat) (edgeTolerance : Nat) :
    List Mask × List ℚ × List Box :=
  if masks.length = 0 then (masks, scores, boxes)
  else
    let kept := (masks.zip (scores.zip boxes)).filter fun t =>
      !isMaskNearEdge t.1 imageShape edgeTolerance
    (kept.map fun t => t.1, kept.map fun t => t.2.1, kept.map fun t => t.2.2)

/-! ## Complexity-based scoring and re-ranking

`compute_mask_complexity` and the connected-component count used by the
component bonus are OpenCV computations on the mask (`cv2.findContours` /
`cv2.arcLength` / `cv2.connectedComponents`); they enter `compute_combined_score`
and `sort_masks_by_combined_score` only through their numeric results, so the
embedding abstracts them as parameters `complexityOf` (the value of
`compute_mask_complexity(mask, threshold)`) and `numComponentsOf` (the value of
`cv2.connectedComponents(mask)[0]`, background label included).  Masks and
low-res logits are carried as opaque type parameters, as sorting never reads
their contents. -/

/-- `compute_combined_score`: `(1 - w) * iou + w * normalized_complexity`,
where the normalized complexity clamps `complexity / 10` to at most 1 and an
optional component bonus adds `bonus * (components - 2) / 5` (clamped to 1). -/
def computeCombinedScore {α : Type} (iouScore : ℚ) (mask : α)
    (complexityWeight componentBonus : ℚ)
    (complexityOf : α → ℚ) (numComponentsOf : α → Nat) : ℚ :=
  let complexity := complexityOf mask
  let normalized := min (complexity / 10) 1
  let normalized' :=
    if 0 < componentBonus then
      let actualComponents := numComponentsOf mask - 1
      let componentScore := componentBonus * ((actualComponents - 1 : Nat) : ℚ) / 5
      min (normalized + componentScore) 1
    else normalized
  (1 - complexityWeight) * iouScore + complexityWeight * normalized'

/-- The per-candidate combined scores of `sort_masks_by_combined_score`. -/
def combinedScores {α : Type} (masks : List α) (iouScores : List ℚ)
    (complexityWeight componentBonus : ℚ)
    (complexityOf : α → ℚ) (numComponentsOf : α → Nat) : List ℚ :=
  (iouScores.zip masks).map fun p =>
    computeCombinedScore p.1 p.2 complexityWeight componentBonus
      complexityOf numComponentsOf

/-- The stable descending index permutation of `sort_masks_by_combined_score`. -/
def combinedSortIdx {α : Type} (masks : List α) (iouScores : List ℚ)
    (complexityWeight componentBonus : ℚ)
    (complexityOf : α → ℚ) (numComponentsOf : α → Nat) : List Nat :=
  (List.range masks.length).insertionSort
    (descOrder fun i =>
      (combinedScores masks iouScores complexityWeight componentBonus
        complexityOf numComponentsOf).getD i 0)

/-- `sort_masks_by_combined_score`: compute combined scores, sort candidate
indices by descending combined score (stable), and apply the same index
permutation to masks, IoU scores, boxes, combined scores, and (when present
with matching length) low-res logits. -/
def sortMasksByCombinedScore {α β : Type} [Inhabited α] [Inhabited β]
    (masks : List α) (iouScores : List ℚ) (boxes : List Box)
    (complexityWeight : ℚ) (lowResLogits : Option (List β)) (componentBonus : ℚ)
    (complexityOf : α → ℚ) (numComponentsOf : α → Nat) :
    List α × List ℚ × List Box × List ℚ × Option (List β) :=
  if masks.length = 0 then (masks, iouScores, boxes, [], lowResLogits)
  else
    let combined := combinedScores masks iouScores complexityWeight componentBonus
      complexityOf numComponentsOf
    let idx := combinedSortIdx masks iouScores complexityWeight componentBonus
      complexityOf numComponentsOf
    (idx.map fun i => masks.getD i default,
     idx.map fun i => iouScores.getD i 0,
     idx.map fun i => boxes.getD i (0, 0, 0, 0),
     idx.map fun i => combined.getD i 0,
     match lowResLogits with
     | some logits =>
       if logits.length = masks.length then some (idx.map fun i => logits.getD i default)
       else none
     | none => none)

/-- The pixel area used by `sort_masks_by_area` (`np.sum(mask)` on the binary
mask). -/
def maskArea (m : Mask) : Nat := m.count

/-- The stable index permutation of `sort_masks_by_area`. -/
def areaSortIdx (masks : List Mask) (largestFirst : Bool) : List Nat :=
  if largestFirst then
    (List.range masks.length).insertionSort
      (descOrderN fun i => (masks.map maskArea).getD i 0)
  else
    (List.range masks.length).insertionSort
      (ascOrder fun i => (masks.map maskArea).getD i 0)

/-- `sort_masks_by_area`: sort candidate indices by area (largest or smallest
first, stable) and apply the same permutation to masks, IoU scores, boxes,
areas, and (when present with matching length) low-res logits. -/
def sortMasksByArea {β : Type} [Inhabited β]
    (masks : List Mask) (iouScores : List ℚ) (boxes : List Box)
    (lowResLogits : Option (List β)) (largestFirst : Bool) :
    List Mask × List ℚ × List Box × List Nat × Option (List β) :=
  if masks.length = 0 then (masks, iouScores, boxes, [], lowResLogits)
  else
    let areas := masks.map maskArea
    let idx := areaSortIdx masks largestFirst
    (idx.map fun i => masks.getD i (Mask.zeros 0 0),
     idx.map fun i => iouScores.getD i 0,
     idx.map fun i => boxes.getD i (0, 0, 0, 0),
     idx.map fun i => areas.getD i 0,
     match lowResLogits with
     | some logits =>
       if logits.length = masks.length then some (idx.map fun i => logits.getD i default)
       else none
     | none => none)

/-! ## `postprocess_mask` and `constrain_mask_to_box` -/

namespace NDArray

end NDArray

/-- C2 counterexample.  With weight 1/2, a circle of confidence 0.95 and
complexity 7/2 (normalized 7/20) and a star of confidence 0.85 and complexity
5 (normalized 1/2): the star's combined score beats the circle's although the
star's normalized complexity exceeds the circle's by only 3/20, which is not
more than 0.2 — refuting the claimed "iff the gap exceeds 0.2 (confidence gap
divided by weight)". -/
theorem C2_combined_score_counterexample :
    computeCombinedScore (85/100) () (1/2) 0 (fun _ => 5) (fun _ => 1) >
      computeCombinedScore (95/100) () (1/2) 0 (fun _ => 7/2) (fun _ => 1) ∧
    ¬ (min ((5 : ℚ)/10) 1 - min (((7 : ℚ)/2)/10) 1 > 1/5) := by
  unfold computeCombinedScore
  norm_num

/-- C2 (corrected).  With combined score `(1 - w) * confidence +
w * normalized_complexity`, `normalized_complexity = min(complexity/10, 1)`,
and no component bonus: at weight 1/2, a star with confidence 0.85 out-scores
a circle with confidence 0.95 iff the star's normalized complexity exceeds the
circle's by more than 0.1 — the confidence gap times `(1 - w) / w`, not the
gap divided by the weight. -/
theorem C2_combined_score_ranking (cStar cCircle : ℚ) :
    computeCombinedScore (85/100) () (1/2) 0 (fun _ => cStar) (fun _ => 1) >
      computeCombinedScore (95/100) () (1/2) 0 (fun _ => cCircle) (fun _ => 1) ↔
    min (cStar/10) 1 - min (cCircle/10) 1 > 1/10 := by
  unfold computeCombinedScore
  norm_num
  constructor <;> intro h <;> linarith

/-! ## Claim C10: empty masks are never near an edge -/

theorem Mask.count_pos_of_get {m : Mask} {y x : Nat} (h : m.get y x = true) :
    0 < m.count := by
  unfold Mask.get at h
  rcases Nat.lt_or_ge y m.data.length with hy | hy
  · have hrow : m.data.getD y [] = m.data[y] := by
      rw [List.getD_eq_getElem?_getD, List.getElem?_eq_getElem hy]; rfl
    rw [hrow] at h
    have hmemrow : m.data[y] ∈ m.data := List.getElem_mem hy
    have htrue : true ∈ m.data[y] := by
      rcases Nat.lt_or_ge x (m.data[y]).length with hx | hx
      · have : (m.data[y]).getD x false = (m.data[y])[x] := by
          rw [List.getD_eq_getElem?_getD, List.getElem?_eq_getElem hx]; rfl
        rw [this] at h
        rw [← h]
        exact List.getElem_mem hx
      · rw [List.getD_eq_getElem?_getD, List.getElem?_eq_none (by simpa using hx)] at h
        simp at h
    have hcp : 0 < (m.data[y]).countP id := by
      rw [List.countP_pos]
      exact ⟨true, htrue, rfl⟩
    have hmem : (m.data[y]).countP id ∈ m.data.map (List.countP id) :=
      List.mem_map_of_mem _ hmemrow
    calc 0 < (m.data[y]).countP id := hcp
      _ ≤ m.count := List.single_le_sum (fun i _ => Nat.zero_le i) _ hmem
  · have hrow : m.data.getD y [] = [] := by
      rw [List.getD_eq_getElem?_getD, List.getElem?_eq_none (by simpa using hy)]; rfl
    rw [hrow] at h
    simp at h

theorem get_of_mem_fgPoints {m : Mask} {p : Int × Int} (hp : p ∈ fgPoints m) :
    ∃ y x, y < m.h ∧ x < m.w ∧ m.get y x = true ∧ p = ((x : Int), (y : Int)) := by
  unfold fgPoints at hp
  rw [List.mem_flatMap] at hp
  obtain ⟨y, hy, hmem⟩ := hp
  rw [List.mem_filterMap] at hmem
  obtain ⟨x, hx, hsome⟩ := hmem
  rw [List.mem_range] at hy
  rw [List.mem_range] at hx
  by_cases hget : m.get y x = true
  · rw [if_pos hget] at hsome
    exact ⟨y, x, hy, hx, hget, (Option.some_inj.mp hsome).symm⟩
  · rw [if_neg hget] at hsome
    exact absurd hsome (Option.some_ne_none _).symm

theorem mem_fgPoints_of_get {m : Mask} {y x : Nat} (hy : y < m.h) (hx : x < m.w)
    (hget : m.get y x = true) : ((x : Int), (y : Int)) ∈ fgPoints m := by
  unfold fgPoints
  rw [List.mem_flatMap]
  refine ⟨y, List.mem_range.mpr hy, ?_⟩
  rw [List.mem_filterMap]
  exact ⟨x, List.mem_range.mpr hx, by rw [if_pos hget]⟩

theorem fgPoints_eq_nil_of_count_eq_zero {m : Mask} (h : m.count = 0) :
    fgPoints m = [] := by
  by_contra hne
  obtain ⟨p, hp⟩ := List.exists_mem_of_ne_nil _ hne
  obtain ⟨y, x, _, _, hget, _⟩ := get_of_mem_fgPoints hp
  exact absurd h (Nat.pos_iff_ne_zero.mp (Mask.count_pos_of_get hget))

/-- C10.  A mask with no foreground pixels is never classified as near an
image edge, for every image shape and tolerance; consequently
`filter_edge_masks` always retains an empty candidate together with its score
and box (the zipped output triples contain it). -/
theorem C10_empty_mask_never_near_edge :
    (∀ (m : Mask) (imageShape : Nat × Nat) (tol : Nat),
      m.count = 0 → isMaskNearEdge m imageShape tol = false) ∧
    (∀ (masks : List Mask) (scores : List ℚ) (boxes : List Box)
       (imageShape : Nat × Nat) (tol : Nat) (i : Nat),
      scores.length = masks.length → boxes.length = masks.length →
      i < masks.length → (masks.getD i (Mask.zeros 0 0)).count = 0 →
      (masks.getD i (Mask.zeros 0 0), scores.getD i 0, boxes.getD i (0, 0, 0, 0)) ∈
        (filterEdgeMasks masks scores boxes imageShape tol).1.zip
          ((filterEdgeMasks masks scores boxes imageShape tol).2.1.zip
            (filterEdgeMasks masks scores boxes imageShape tol).2.2)) := by
  have hpart1 : ∀ (m : Mask) (imageShape : Nat × Nat) (tol : Nat),
      m.count = 0 → isMaskNearEdge m imageShape tol = false := by
    intro m shape tol hc
    unfold isMaskNearEdge
    by_cases h0 : m.h * m.w = 0
    · rw [if_pos h0]
    · rw [if_neg h0]
      have : fgPoints m = [] := fgPoints_eq_nil_of_count_eq_zero hc
      simp [this]
  refine ⟨hpart1, ?_⟩
  intro masks scores boxes shape tol i hs hb hi hc
  unfold filterEdgeMasks
  rw [if_neg (by omega)]
  simp only
  set t : Mask × ℚ × Box :=
    (masks.getD i (Mask.zeros 0 0), scores.getD i 0, boxes.getD i (0, 0, 0, 0)) with ht
  have hsl : i < scores.length := by omega
  have hbl : i < boxes.length := by omega
  have him : i < (masks.zip (scores.zip boxes)).length := by
    simp only [List.length_zip, hs, hb]
    omega
  have htz : t ∈ masks.zip (scores.zip boxes) := by
    have hgz : (masks.zip (scores.zip boxes))[i] = t := by
      rw [List.getElem_zip, List.getElem_zip, ht,
        List.getD_eq_getElem masks _ hi, List.getD_eq_getElem scores _ hsl,
        List.getD_eq_getElem boxes _ hbl]
    rw [← hgz]
    exact List.getElem_mem him
  set kept := (masks.zip (scores.zip boxes)).filter
    (fun t => !isMaskNearEdge t.1 shape tol) with hkept
  have htk : t ∈ kept := by
    rw [hkept, List.mem_filter]
    refine ⟨htz, ?_⟩
    rw [ht]
    simp only
    rw [hpart1 _ _ _ hc]
    rfl
  have hzip : (kept.map fun t => t.1).zip ((kept.map fun t => t.2.1).zip
      (kept.map fun t => t.2.2)) = kept := by
    rw [List.zip_map', List.zip_map']
    simp
  rw [hzip]
  exact htk

/-- Witness for C10 at a concrete input: a single empty 2×2 mask with score
1/2 and box (0,0,1,1) is classified as not near the edge and survives
filtering together with its score and box. -/
theorem C10_empty_mask_never_near_edge_witness :
    isMaskNearEdge (Mask.zeros 2 2) (5, 5) 20 = false ∧
    (Mask.zeros 2 2, (1/2 : ℚ), ((0 : ℚ), (0 : ℚ), (1 : ℚ), (1 : ℚ))) ∈
      (filterEdgeMasks [Mask.zeros 2 2] [1/2] [(0, 0, 1, 1)] (5, 5) 20).1.zip
        ((filterEdgeMasks [Mask.zeros 2 2] [1/2] [(0, 0, 1, 1)] (5, 5) 20).2.1.zip
          (filterEdgeMasks [Mask.zeros 2 2] [1/2] [(0, 0, 1, 1)] (5, 5) 20).2.2) := by
  constructor
  · exact C10_empty_mask_never_near_edge.1 (Mask.zeros 2 2) (5, 5) 20 (by decide)
  · exact C10_empty_mask_never_near_edge.2 [Mask.zeros 2 2] [1/2] [(0, 0, 1, 1)]
      (5, 5) 20 0 rfl rfl (by decide) (by decide)

/-! ## Stable-sort infrastructure shared by NMS, non-overlap and re-ranking -/

theorem descOrder_total (k : Nat → ℚ) : ∀ i j, descOrder k i j ∨ descOrder k j i := by
  intro i j
  rcases lt_trichotomy (k i) (k j) with h | h | h
  · right; left; exact h
  · rcases Nat.le_total i j with hij | hij
    · left; right; exact ⟨h, hij⟩
    · right; right; exact ⟨h.symm, hij⟩
  · left; left; exact h

instance (k : Nat → ℚ) : IsTotal Nat (descOrder k) := ⟨descOrder_total k⟩

instance (k : Nat → ℚ) : IsTrans Nat (descOrder k) := by
  constructor
  intro a b c hab hbc
  rcases hab with h1 | ⟨h1, h1'⟩ <;> rcases hbc with h2 | ⟨h2, h2'⟩
  · left; linarith
  · left; linarith
  · left; linarith
  · right; exact ⟨by linarith, by omega⟩

theorem descOrder_antisymm {k : Nat → ℚ} {i j : Nat} (h1 : descOrder k i j)
    (h2 : descOrder k j i) : i = j := by
  rcases h1 with h1 | ⟨h1, h1'⟩ <;> rcases h2 with h2 | ⟨h2, h2'⟩
  · exact absurd h1 (by linarith)
  · exact absurd h1 (by linarith)
  · exact absurd h2 (by linarith)
  · omega

theorem descOrderN_total (k : Nat → Nat) : ∀ i j, descOrderN k i j ∨ descOrderN k j i := by
  intro i j
  unfold descOrderN
  omega

instance (k : Nat → Nat) : IsTotal Nat (descOrderN k) := ⟨descOrderN_total k⟩

instance (k : Nat → Nat) : IsTrans Nat (descOrderN k) := by
  constructor
  intro a b c hab hbc
  unfold descOrderN at *
  omega

instance (k : Nat → Nat) : IsTotal Nat (ascOrder k) := by
  constructor
  intro i j
  unfold ascOrder
  omega

instance (k : Nat → Nat) : IsTrans Nat (ascOrder k) := by
  constructor
  intro a b c hab hbc
  unfold ascOrder at *
  omega

theorem sortedRange_perm (r : Nat → Nat → Prop) [DecidableRel r] (n : Nat) :
    List.Perm ((List.range n).insertionSort r) (List.range n) :=
  List.perm_insertionSort r (List.range n)

theorem sortedRange_nodup (r : Nat → Nat → Prop) [DecidableRel r] (n : Nat) :
    ((List.range n).insertionSort r).Nodup :=
  (sortedRange_perm r n).nodup_iff.mpr (List.nodup_range n)

theorem mem_sortedRange (r : Nat → Nat → Prop) [DecidableRel r] (n : Nat) (j : Nat) :
    j ∈ (List.range n).insertionSort r ↔ j < n := by
  rw [(sortedRange_perm r n).mem_iff, List.mem_range]

/-- For a sorted, duplicate-free enumeration of `range n` by an antisymmetric
total order, "appears strictly before `i`" is exactly "strictly precedes `i`
in the order". -/
theorem sortedRange_prefix_mem {r : Nat → Nat → Prop} [DecidableRel r]
    [IsTotal Nat r] [IsTrans Nat r]
    (hanti : ∀ {a b : Nat}, r a b → r b a → a = b) (n : Nat) {pre suf : List Nat} {i : Nat}
    (horder : (List.range n).insertionSort r = pre ++ i :: suf) {j : Nat} (hj : j < n) :
    j ∈ pre ↔ (r j i ∧ j ≠ i) := by
  have hsorted : List.Sorted r (pre ++ i :: suf) := by
    rw [← horder]; exact List.sorted_insertionSort r (List.range n)
  have hnodup : (pre ++ i :: suf).Nodup := by
    rw [← horder]; exact sortedRange_nodup r n
  have hmem : j ∈ pre ++ i :: suf := by
    rw [← horder, mem_sortedRange]; exact hj
  constructor
  · intro hjpre
    have hrel : r j i := by
      have := (List.pairwise_append.mp hsorted).2.2
      exact this j hjpre i (List.mem_cons_self i suf)
    have hne : j ≠ i := by
      intro hji
      have hdisj := (List.nodup_append.mp hnodup).2.2
      exact hdisj hjpre (hji ▸ List.mem_cons_self i suf)
    exact ⟨hrel, hne⟩
  · rintro ⟨hrel, hne⟩
    rcases List.mem_append.mp hmem with hcase | hcase
    · exact hcase
    · rcases List.mem_cons.mp hcase with hcase | hcase
      · exact absurd hcase hne
      · exfalso
        have hsuf : r i j := by
          have := (List.pairwise_append.mp hsorted).2.1
          exact (List.pairwise_cons.mp this).1 j hcase
        exact hne (hanti hrel hsuf)

/-! ## Claim C5: greedy NMS -/

theorem calculate_iou_comm (b1 b2 : Box) : calculate_iou b1 b2 = calculate_iou b2 b1 := by
  unfold calculate_iou
  simp only [max_comm b1.1 b2.1, max_comm b1.2.1 b2.2.1, min_comm b1.2.2.1 b2.2.2.1,
    min_comm b1.2.2.2 b2.2.2.2,
    add_comm ((b1.2.2.1 - b1.1) * (b1.2.2.2 - b1.2.1))]

/-- The pixel relation maintained between all pairs of kept NMS candidates. -/
def nmsOk (boxes : List Box) (thr : ℚ) (a b : Nat) : Prop :=
  calculate_iou (boxes.getD a (0, 0, 0, 0)) (boxes.getD b (0, 0, 0, 0)) ≤ thr

instance (boxes : List Box) (thr : ℚ) : DecidableRel (nmsOk boxes thr) := fun _ _ => by
  unfold nmsOk; infer_instance

theorem nmsOk_symm {boxes : List Box} {thr : ℚ} {a b : Nat} (h : nmsOk boxes thr a b) :
    nmsOk boxes thr b a := by
  unfold nmsOk at *
  rwa [calculate_iou_comm]

theorem nmsFold_pairwise (boxes : List Box) (thr : ℚ) :
    ∀ (os keep : List Nat), keep.Pairwise (nmsOk boxes thr) →
      (os.foldl (nmsStep boxes thr) keep).Pairwise (nmsOk boxes thr) := by
  intro os
  induction os with
  | nil => intro keep h; exact h
  | cons o os ih =>
    intro keep h
    simp only [List.foldl_cons]
    apply ih
    unfold nmsStep
    by_cases hall : keep.all fun j =>
        decide (calculate_iou (boxes.getD o (0, 0, 0, 0)) (boxes.getD j (0, 0, 0, 0)) ≤ thr)
    · rw [if_pos hall]
      rw [List.pairwise_append]
      refine ⟨h, List.pairwise_singleton _ _, ?_⟩
      intro a ha b hb
      rcases List.mem_singleton.mp hb with rfl
      have := List.all_eq_true.mp hall a ha
      exact nmsOk_symm (of_decide_eq_true this)
    · rw [if_neg hall]
      exact h

theorem nmsFold_head (boxes : List Box) (thr : ℚ) :
    ∀ (os keep : List Nat), keep ≠ [] →
      (os.foldl (nmsStep boxes thr) keep).head? = keep.head? ∧
        os.foldl (nmsStep boxes thr) keep ≠ [] := by
  intro os
  induction os with
  | nil => intro keep h; exact ⟨rfl, h⟩
  | cons o os ih =>
    intro keep h
    simp only [List.foldl_cons]
    have hstep : (nmsStep boxes thr keep o).head? = keep.head? ∧ nmsStep boxes thr keep o ≠ [] := by
      unfold nmsStep
      by_cases hall : keep.all fun j =>
          decide (calculate_iou (boxes.getD o (0, 0, 0, 0)) (boxes.getD j (0, 0, 0, 0)) ≤ thr)
      · rw [if_pos hall]
        constructor
        · rcases keep with _ | ⟨a, rest⟩
          · exact absurd rfl h
          · rfl
        · simp
      · rw [if_neg hall]
        exact ⟨rfl, h⟩
    obtain ⟨h1, h2⟩ := ih (nmsStep boxes thr keep o) hstep.2
    exact ⟨h1.trans hstep.1, h2⟩

theorem nmsKeep_pairwise (boxes : List Box) (scores : List ℚ) (thr : ℚ) :
    (nmsKeep boxes scores thr).Pairwise (nmsOk boxes thr) := by
  unfold nmsKeep
  exact nmsFold_pairwise boxes thr _ [] List.Pairwise.nil

theorem nmsKeep_top_survives (boxes : List Box) (scores : List ℚ) (thr : ℚ)
    (hn : boxes.length ≠ 0) :
    ∃ i0, (nmsKeep boxes scores thr).head? = some i0 ∧
      ∀ j, j < boxes.length → scores.getD j 0 ≤ scores.getD i0 0 := by
  unfold nmsKeep
  set order := (List.range boxes.length).insertionSort (descOrder fun i => scores.getD i 0)
    with horder
  have hne : order ≠ [] := by
    intro hnil
    have h0 : (0 : Nat) ∈ order := by
      rw [horder, mem_sortedRange]
      omega
    rw [hnil] at h0
    exact absurd h0 (List.not_mem_nil 0)
  rcases hord : order with _ | ⟨o0, rest⟩
  · exact absurd hord hne
  refine ⟨o0, ?_, ?_⟩
  · simp only [List.foldl_cons]
    have hfirst : nmsStep boxes thr [] o0 = [o0] := by
      unfold nmsStep
      rw [if_pos (by simp)]
      rfl
    rw [hfirst]
    exact (nmsFold_head boxes thr rest [o0] (by simp)).1
  · intro j hj
    have hsorted : List.Sorted (descOrder fun i => scores.getD i 0) (o0 :: rest) := by
      rw [← hord, horder]
      exact List.sorted_insertionSort _ _
    have hmem : j ∈ o0 :: rest := by
      rw [← hord, horder, mem_sortedRange]
      exact hj
    rcases List.mem_cons.mp hmem with rfl | hmem
    · exact le_refl _
    · have := (List.pairwise_cons.mp hsorted).1 j hmem
      rcases this with h | ⟨h, _⟩
      · exact le_of_lt h
      · exact le_of_eq h.symm

theorem getD_map_lt {α : Type} {l : List Nat} {f : Nat → α} {p : Nat}
    (hp : p < l.length) (d : α) (d2 : Nat) :
    (l.map f).getD p d = f (l.getD p d2) := by
  rw [List.getD_eq_getElem _ _ (by simpa using hp), List.getElem_map,
    List.getD_eq_getElem _ _ hp]

theorem pairwise_pos_getD {l : List Nat} {R : Nat → Nat → Prop}
    (hsym : ∀ a b, R a b → R b a) (h : l.Pairwise R) {p q : Nat}
    (hp : p < l.length) (hq : q < l.length) (hpq : p ≠ q) :
    R (l.getD p 0) (l.getD q 0) := by
  rw [List.pairwise_iff_getElem] at h
  rw [List.getD_eq_getElem _ _ hp, List.getD_eq_getElem _ _ hq]
  rcases Nat.lt_or_ge p q with hlt | hge
  · exact h p q hp hq hlt
  · exact hsym _ _ (h q p hq hp (by omega))

/-- C5.  `apply_nms_to_masks` implements standard greedy NMS over one class:
for every input with parallel scores and boxes, (a) any two distinct surviving
candidates have pairwise box IoU at most the configured threshold, and (b) for
nonempty input some surviving candidate carries the maximum score. -/
theorem C5_nms_greedy_suppression (masks : List Mask) (scores : List ℚ) (boxes : List Box)
    (thr : ℚ) (hs : scores.length = masks.length) (hb : boxes.length = masks.length) :
    (∀ p q, p < ((applyNmsToMasks masks scores boxes thr).2.2).length →
      q < ((applyNmsToMasks masks scores boxes thr).2.2).length → p ≠ q →
      calculate_iou (((applyNmsToMasks masks scores boxes thr).2.2).getD p (0, 0, 0, 0))
        (((applyNmsToMasks masks scores boxes thr).2.2).getD q (0, 0, 0, 0)) ≤ thr) ∧
    (masks ≠ [] →
      ∃ p, p < ((applyNmsToMasks masks scores boxes thr).2.1).length ∧
        ∀ j, j < scores.length →
          scores.getD j 0 ≤ ((applyNmsToMasks masks scores boxes thr).2.1).getD p 0) := by
  unfold applyNmsToMasks
  by_cases h0 : masks.length = 0
  · rw [if_pos h0]
    constructor
    · intro p q hp hq hpq
      exfalso
      rw [hb] at hp
      omega
    · intro hne
      exact absurd (List.length_eq_zero.mp h0) hne
  · rw [if_neg h0]
    by_cases h1 : masks.length = 1
    · rw [if_pos h1]
      constructor
      · intro p q hp hq hpq
        exfalso
        rw [hb, h1] at hp hq
        omega
      · intro _
        refine ⟨0, show 0 < scores.length by omega, ?_⟩
        intro j hj
        have : j = 0 := by omega
        subst this
        exact le_refl _
    · rw [if_neg h1]
      simp only
      constructor
      · intro p q hp hq hpq
        rw [List.length_map] at hp hq
        rw [getD_map_lt hp _ 0, getD_map_lt hq _ 0]
        exact pairwise_pos_getD (fun a b => nmsOk_symm) (nmsKeep_pairwise boxes scores thr)
          hp hq hpq
      · intro _
        obtain ⟨i0, hhead, hmax⟩ := nmsKeep_top_survives boxes scores thr (by omega)
        have hklen : 0 < (nmsKeep boxes scores thr).length := by
          rcases hkeep : nmsKeep boxes scores thr with _ | ⟨a, rest⟩
          · rw [hkeep] at hhead
            simp at hhead
          · simp
        refine ⟨0, by simpa using hklen, ?_⟩
        intro j hj
        have hg : (nmsKeep boxes scores thr).getD 0 0 = i0 := by
          rcases hkeep : nmsKeep boxes scores thr with _ | ⟨a, rest⟩
          · rw [hkeep] at hhead
            simp at hhead
          · rw [hkeep] at hhead
            simp at hhead
            rw [hhead]
            rfl
        rw [getD_map_lt hklen _ 0, hg]
        exact hmax j (by omega)

/-- Witness for C5: three identical candidates with scores 0.9, 0.8, 0.7 and
identical boxes at threshold 0.5 (the specification's scenario). -/
theorem C5_nms_greedy_suppression_witness :
    (∀ p q,
      p < ((applyNmsToMasks [Mask.zeros 2 2, Mask.zeros 2 2, Mask.zeros 2 2]
        [9/10, 8/10, 7/10] [(0, 0, 2, 2), (0, 0, 2, 2), (0, 0, 2, 2)] (1/2)).2.2).length →
      q < ((applyNmsToMasks [Mask.zeros 2 2, Mask.zeros 2 2, Mask.zeros 2 2]
        [9/10, 8/10, 7/10] [(0, 0, 2, 2), (0, 0, 2, 2), (0, 0, 2, 2)] (1/2)).2.2).length →
      p ≠ q →
      calculate_iou
        (((applyNmsToMasks [Mask.zeros 2 2, Mask.zeros 2 2, Mask.zeros 2 2]
          [9/10, 8/10, 7/10] [(0, 0, 2, 2), (0, 0, 2, 2), (0, 0, 2, 2)] (1/2)).2.2).getD p
            (0, 0, 0, 0))
        (((applyNmsToMasks [Mask.zeros 2 2, Mask.zeros 2 2, Mask.zeros 2 2]
          [9/10, 8/10, 7/10] [(0, 0, 2, 2), (0, 0, 2, 2), (0, 0, 2, 2)] (1/2)).2.2).getD q
            (0, 0, 0, 0)) ≤ 1/2) ∧
    ([Mask.zeros 2 2, Mask.zeros 2 2, Mask.zeros 2 2] ≠ ([] : List Mask) →
      ∃ p, p < ((applyNmsToMasks [Mask.zeros 2 2, Mask.zeros 2 2, Mask.zeros 2 2]
        [9/10, 8/10, 7/10] [(0, 0, 2, 2), (0, 0, 2, 2), (0, 0, 2, 2)] (1/2)).2.1).length ∧
        ∀ j, j < ([(9 : ℚ)/10, 8/10, 7/10] : List ℚ).length →
          ([(9 : ℚ)/10, 8/10, 7/10] : List ℚ).getD j 0 ≤
            ((applyNmsToMasks [Mask.zeros 2 2, Mask.zeros 2 2, Mask.zeros 2 2]
              [9/10, 8/10, 7/10] [(0, 0, 2, 2), (0, 0, 2, 2), (0, 0, 2, 2)] (1/2)).2.1).getD p
              0) :=
  C5_nms_greedy_suppression [Mask.zeros 2 2, Mask.zeros 2 2, Mask.zeros 2 2]
    [9/10, 8/10, 7/10] [(0, 0, 2, 2), (0, 0, 2, 2), (0, 0, 2, 2)] (1/2) rfl rfl

/-! ## Claim C6: re-ranking permutes all parallel lists identically -/

/-- C6.  `sort_masks_by_combined_score` and `sort_masks_by_area` each apply
one single index permutation to the masks, the IoU scores, the boxes, and
(when a logits list of matching length is provided) the low-res logits; the
permutation orders candidates by descending combined score, respectively by
area (largest or smallest first). -/
theorem C6_rerank_moves_zipped_tuples {α β : Type} [Inhabited α] [Inhabited β]
    (masks : List α) (iouScores : List ℚ) (boxes : List Box) (w bonus : ℚ)
    (lowResLogits : Option (List β)) (complexityOf : α → ℚ) (numComponentsOf : α → Nat)
    (hs : iouScores.length = masks.length) (hbx : boxes.length = masks.length)
    (amasks : List Mask) (aious : List ℚ) (aboxes : List Box) (alogits : Option (List β))
    (lf : Bool) (has : aious.length = amasks.length) (habx : aboxes.length = amasks.length) :
    (∃ σ : List Nat, List.Perm σ (List.range masks.length) ∧
      (sortMasksByCombinedScore masks iouScores boxes w lowResLogits bonus complexityOf
        numComponentsOf).1 = σ.map (fun i => masks.getD i default) ∧
      (sortMasksByCombinedScore masks iouScores boxes w lowResLogits bonus complexityOf
        numComponentsOf).2.1 = σ.map (fun i => iouScores.getD i 0) ∧
      (sortMasksByCombinedScore masks iouScores boxes w lowResLogits bonus complexityOf
        numComponentsOf).2.2.1 = σ.map (fun i => boxes.getD i (0, 0, 0, 0)) ∧
      (∀ L, lowResLogits = some L → L.length = masks.length →
        (sortMasksByCombinedScore masks iouScores boxes w lowResLogits bonus complexityOf
          numComponentsOf).2.2.2.2 = some (σ.map fun i => L.getD i default)) ∧
      ((sortMasksByCombinedScore masks iouScores boxes w lowResLogits bonus complexityOf
        numComponentsOf).2.2.2.1).Pairwise (fun a b : ℚ => b ≤ a)) ∧
    (∃ τ : List Nat, List.Perm τ (List.range amasks.length) ∧
      (sortMasksByArea amasks aious aboxes alogits lf).1 =
        τ.map (fun i => amasks.getD i (Mask.zeros 0 0)) ∧
      (sortMasksByArea amasks aious aboxes alogits lf).2.1 =
        τ.map (fun i => aious.getD i 0) ∧
      (sortMasksByArea amasks aious aboxes alogits lf).2.2.1 =
        τ.map (fun i => aboxes.getD i (0, 0, 0, 0)) ∧
      (∀ L, alogits = some L → L.length = amasks.length →
        (sortMasksByArea amasks aious aboxes alogits lf).2.2.2.2 =
          some (τ.map fun i => L.getD i default)) ∧
      (lf = true →
        ((sortMasksByArea amasks aious aboxes alogits lf).2.2.2.1).Pairwise
          (fun a b : Nat => b ≤ a)) ∧
      (lf = false →
        ((sortMasksByArea amasks aious aboxes alogits lf).2.2.2.1).Pairwise
          (fun a b : Nat => a ≤ b))) := by
  constructor
  · unfold sortMasksByCombinedScore
    by_cases h0 : masks.length = 0
    · rw [if_pos h0]
      have hm : masks = [] := List.length_eq_zero.mp h0
      have hsc : iouScores = [] := List.length_eq_zero.mp (by omega)
      have hbb : boxes = [] := List.length_eq_zero.mp (by omega)
      refine ⟨[], by rw [h0]; exact List.Perm.refl _, by rw [hm]; rfl, by rw [hsc]; rfl,
        by rw [hbb]; rfl, ?_, by rw [hsc, hm]; exact List.Pairwise.nil⟩
      intro L hL hlen
      rw [hL]
      have : L = [] := List.length_eq_zero.mp (by omega)
      rw [this]
      rfl
    · rw [if_neg h0]
      refine ⟨combinedSortIdx masks iouScores w bonus complexityOf numComponentsOf,
        by unfold combinedSortIdx; exact sortedRange_perm _ _, rfl, rfl, rfl, ?_, ?_⟩
      · intro L hL hlen
        rw [hL]
        simp only [if_pos hlen]
      · exact List.Pairwise.map _
          (fun a b (hab : descOrder _ a b) => by
            rcases hab with hab | ⟨hab, _⟩
            · exact le_of_lt hab
            · exact le_of_eq hab.symm)
          (List.sorted_insertionSort _ _)
  · unfold sortMasksByArea
    by_cases h0 : amasks.length = 0
    · rw [if_pos h0]
      have hm : amasks = [] := List.length_eq_zero.mp h0
      have hsc : aious = [] := List.length_eq_zero.mp (by omega)
      have hbb : aboxes = [] := List.length_eq_zero.mp (by omega)
      refine ⟨[], by rw [h0]; exact List.Perm.refl _, by rw [hm]; rfl, by rw [hsc]; rfl,
        by rw [hbb]; rfl, ?_, fun _ => by rw [hm]; exact List.Pairwise.nil,
        fun _ => by rw [hm]; exact List.Pairwise.nil⟩
      intro L hL hlen
      rw [hL]
      have : L = [] := List.length_eq_zero.mp (by omega)
      rw [this]
      rfl
    · rw [if_neg h0]
      refine ⟨areaSortIdx amasks lf, ?_, rfl, rfl, rfl, ?_, fun hlf => ?_, fun hlf => ?_⟩
      · unfold areaSortIdx
        rcases lf with _ | _
        · rw [if_neg (by simp)]
          exact sortedRange_perm _ _
        · rw [if_pos rfl]
          exact sortedRange_perm _ _
      · intro L hL hlen
        rw [hL]
        simp only [if_pos hlen]
      · subst hlf
        unfold areaSortIdx
        rw [if_pos rfl]
        exact List.Pairwise.map _
          (fun a b (hab : descOrderN _ a b) => by
            rcases hab with hab | ⟨hab, _⟩
            · exact le_of_lt hab
            · exact le_of_eq hab.symm)
          (List.sorted_insertionSort _ _)
      · subst hlf
        unfold areaSortIdx
        rw [if_neg (by simp)]
        exact List.Pairwise.map _
          (fun a b (hab : ascOrder _ a b) => by
            rcases hab with hab | ⟨hab, _⟩
            · exact le_of_lt hab
            · exact le_of_eq hab)
          (List.sorted_insertionSort _ _)

/-- Witness for C6 at a concrete input: two candidates with constant
complexity, and a single-mask area sort. -/
theorem C6_rerank_moves_zipped_tuples_witness :
    (∃ σ : List Nat, List.Perm σ (List.range 2) ∧
      (sortMasksByCombinedScore [(), ()] [1/2, 1/3] [(0, 0, 1, 1), (0, 0, 2, 2)] (3/10)
        (none : Option (List Unit)) 0 (fun _ => 1) (fun _ => 1)).1 =
        σ.map (fun i => [(), ()].getD i default)) ∧
    (∃ τ : List Nat, List.Perm τ (List.range 1) ∧
      (sortMasksByArea [Mask.zeros 1 1] [1] [(0, 0, 1, 1)]
        (none : Option (List Unit)) true).1 =
        τ.map (fun i => [Mask.zeros 1 1].getD i (Mask.zeros 0 0))) := by
  obtain ⟨⟨σ, hperm, hm, _⟩, ⟨τ, hperm2, hm2, _⟩⟩ :=
    C6_rerank_moves_zipped_tuples [(), ()] [1/2, 1/3] [(0, 0, 1, 1), (0, 0, 2, 2)] (3/10) 0
      (none : Option (List Unit)) (fun _ => 1) (fun _ => 1) rfl rfl
      [Mask.zeros 1 1] [1] [(0, 0, 1, 1)] (none : Option (List Unit)) true rfl rfl
  exact ⟨⟨σ, hperm, hm⟩, ⟨τ, hperm2, hm2⟩⟩

/-! ## Claims C4 and C9: non-overlap enforcement -/

/-- Candidate `j` strictly precedes candidate `i` in the stable
descending-score processing order: a strictly higher score, or an equal score
and a smaller original index. -/
def novPrio (scores : List ℚ) (j i : Nat) : Prop :=
  scores.getD i 0 < scores.getD j 0 ∨ (scores.getD j 0 = scores.getD i 0 ∧ j < i)

theorem zeros_get (h w y x : Nat) : (Mask.zeros h w).get y x = false := by
  unfold Mask.zeros
  rw [Mask.get_ofFn]
  split <;> rfl

theorem pairs_key_eq (masks : List Mask) (scores : List ℚ)
    (hlen : scores.length = masks.length) (i : Nat) :
    ((scores.zip masks).getD i (0, Mask.zeros 0 0)).1 = scores.getD i 0 := by
  rcases Nat.lt_or_ge i scores.length with hi | hi
  · have hiz : i < (scores.zip masks).length := by
      rw [List.length_zip]
      omega
    rw [List.getD_eq_getElem _ _ hiz, List.getElem_zip, List.getD_eq_getElem _ _ hi]
  · rw [List.getD_eq_default _ _ (by rw [List.length_zip]; omega),
      List.getD_eq_default _ _ hi]

theorem pairs_mask_eq (masks : List Mask) (scores : List ℚ)
    (hlen : scores.length = masks.length) (i : Nat) :
    ((scores.zip masks).getD i (0, Mask.zeros 0 0)).2 = masks.getD i (Mask.zeros 0 0) := by
  rcases Nat.lt_or_ge i masks.length with hi | hi
  · have hiz : i < (scores.zip masks).length := by
      rw [List.length_zip]
      omega
    rw [List.getD_eq_getElem _ _ hiz, List.getElem_zip, List.getD_eq_getElem _ _ hi]
  · rw [List.getD_eq_default _ _ (by rw [List.length_zip]; omega),
      List.getD_eq_default _ _ hi]

theorem novPrio_iff (masks : List Mask) (scores : List ℚ)
    (hlen : scores.length = masks.length) (j i : Nat) :
    novPrio scores j i ↔
      (descOrder (fun t => ((scores.zip masks).getD t (0, Mask.zeros 0 0)).1) j i ∧ j ≠ i) := by
  unfold novPrio descOrder
  simp only [pairs_key_eq masks scores hlen]
  constructor
  · rintro (h | ⟨h, h2⟩)
    · refine ⟨Or.inl h, ?_⟩
      intro he
      subst he
      exact lt_irrefl _ h
    · exact ⟨Or.inr ⟨h, by omega⟩, by omega⟩
  · rintro ⟨h | ⟨h, h2⟩, hne⟩
    · exact Or.inl h
    · exact Or.inr ⟨h, by omega⟩

/-- The claimed grid after greedily processing `js` starting from `c`. -/
def novClaim (pairs : List (ℚ × Mask)) : List Nat → Mask → Mask
  | [], c => c
  | i :: js, c => novClaim pairs js
      (Mask.ofFn c.h c.w fun y x =>
        c.get y x || (pairs.getD i (0, Mask.zeros 0 0)).2.get y x)

/-- The adjusted output mask of candidate `i` against claimed grid `c`. -/
def novAdj (pairs : List (ℚ × Mask)) (c : Mask) (i : Nat) : Mask :=
  Mask.ofFn (pairs.getD i (0, Mask.zeros 0 0)).2.h (pairs.getD i (0, Mask.zeros 0 0)).2.w
    fun y x => (pairs.getD i (0, Mask.zeros 0 0)).2.get y x && !(c.get y x)

/-- The (index, adjusted-mask) entries produced while processing `js`. -/
def novEntries (pairs : List (ℚ × Mask)) : List Nat → Mask → List (Nat × Mask)
  | [], _ => []
  | i :: js, c => (i, novAdj pairs c i) ::
      novEntries pairs js
        (Mask.ofFn c.h c.w fun y x =>
          c.get y x || (pairs.getD i (0, Mask.zeros 0 0)).2.get y x)

theorem novFold_spec (pairs : List (ℚ × Mask)) :
    ∀ (js : List Nat) (c : Mask) (acc : List (Nat × Mask)),
      js.foldl (novStep pairs) (c, acc) =
        (novClaim pairs js c, (novEntries pairs js c).reverse ++ acc) := by
  intro js
  induction js with
  | nil => intro c acc; rfl
  | cons i js ih =>
    intro c acc
    simp only [List.foldl_cons]
    rw [show novStep pairs (c, acc) i =
      (Mask.ofFn c.h c.w fun y x =>
        c.get y x || (pairs.getD i (0, Mask.zeros 0 0)).2.get y x,
       (i, novAdj pairs c i) :: acc) from rfl]
    rw [ih]
    simp only [novClaim, novEntries, List.reverse_cons, List.append_assoc,
      List.singleton_append]

theorem novClaim_h (pairs : List (ℚ × Mask)) :
    ∀ (js : List Nat) (c : Mask), (novClaim pairs js c).h = c.h := by
  intro js
  induction js with
  | nil => intro c; rfl
  | cons i js ih =>
    intro c
    show (novClaim pairs js _).h = c.h
    rw [ih]
    rfl

theorem novClaim_w (pairs : List (ℚ × Mask)) :
    ∀ (js : List Nat) (c : Mask), (novClaim pairs js c).w = c.w := by
  intro js
  induction js with
  | nil => intro c; rfl
  | cons i js ih =>
    intro c
    show (novClaim pairs js _).w = c.w
    rw [ih]
    rfl

theorem novClaim_get (pairs : List (ℚ × Mask)) :
    ∀ (js : List Nat) (c : Mask) (y x : Nat), y < c.h → x < c.w →
      (novClaim pairs js c).get y x =
        (c.get y x || js.any fun j => (pairs.getD j (0, Mask.zeros 0 0)).2.get y x) := by
  intro js
  induction js with
  | nil =>
    intro c y x hy hx
    simp [novClaim]
  | cons i js ih =>
    intro c y x hy hx
    show (novClaim pairs js _).get y x = _
    rw [ih _ y x (by simpa using hy) (by simpa using hx)]
    rw [Mask.get_ofFn_of_lt _ hy hx]
    simp [Bool.or_assoc]

theorem novEntries_keys (pairs : List (ℚ × Mask)) :
    ∀ (js : List Nat) (c : Mask), (novEntries pairs js c).map Prod.fst = js := by
  intro js
  induction js with
  | nil => intro c; rfl
  | cons i js ih =>
    intro c
    simp only [novEntries, List.map_cons, ih]

theorem novEntries_mem (pairs : List (ℚ × Mask)) :
    ∀ (pre : List Nat) (i : Nat) (suf : List Nat) (c : Mask),
      (i, novAdj pairs (novClaim pairs pre c) i) ∈ novEntries pairs (pre ++ i :: suf) c := by
  intro pre
  induction pre with
  | nil =>
    intro i suf c
    exact List.mem_cons_self _ _
  | cons a pre ih =>
    intro i suf c
    show _ ∈ (a, _) :: novEntries pairs (pre ++ i :: suf) _
    exact List.mem_cons_of_mem _ (ih i suf _)

theorem novEntries_unique (pairs : List (ℚ × Mask)) :
    ∀ (js : List Nat), js.Nodup → ∀ (c : Mask) (i : Nat) (e : Nat × Mask),
      e ∈ novEntries pairs js c → e.1 = i →
      ∀ (pre suf : List Nat), js = pre ++ i :: suf →
        e = (i, novAdj pairs (novClaim pairs pre c) i) := by
  intro js
  induction js with
  | nil =>
    intro _ c i e he
    simp [novEntries] at he
  | cons a js ih =>
    intro hnd c i e he hei pre suf hsplit
    rcases List.mem_cons.mp he with rfl | hetail
    · have ha : a = i := hei
      subst ha
      rcases pre with _ | ⟨b, pre⟩
      · rfl
      · simp only [List.cons_append, List.cons.injEq] at hsplit
        exfalso
        have hm : a ∈ js := by
          rw [hsplit.2]
          exact List.mem_append.mpr (Or.inr (List.mem_cons_self _ _))
        exact (List.nodup_cons.mp hnd).1 hm
    · have hin : i ∈ js := by
        have hkeys := novEntries_keys pairs js
          (Mask.ofFn c.h c.w fun y x =>
            c.get y x || (pairs.getD a (0, Mask.zeros 0 0)).2.get y x)
        rw [← hkeys, ← hei]
        exact List.mem_map_of_mem _ hetail
      rcases pre with _ | ⟨b, pre⟩
      · simp only [List.nil_append, List.cons.injEq] at hsplit
        exfalso
        have hm : a ∈ js := by
          rw [hsplit.1]
          exact hin
        exact (List.nodup_cons.mp hnd).1 hm
      · simp only [List.cons_append, List.cons.injEq] at hsplit
        have h2 := ih (List.nodup_cons.mp hnd).2 _ i e hetail hei pre suf hsplit.2
        rw [h2]
        rw [show novClaim pairs (b :: pre) c =
          novClaim pairs pre (Mask.ofFn c.h c.w fun y x =>
            c.get y x || (pairs.getD b (0, Mask.zeros 0 0)).2.get y x) from rfl]
        rw [← hsplit.1]

theorem find?_unique_key {l : List (Nat × Mask)} {i : Nat} {v : Mask}
    (hmem : (i, v) ∈ l) (huniq : ∀ e ∈ l, e.1 = i → e = (i, v)) :
    l.find? (fun p => p.1 == i) = some (i, v) := by
  induction l with
  | nil => simp at hmem
  | cons e rest ih =>
    by_cases he : e.1 = i
    · rw [List.find?_cons_of_pos _ (by simp [he])]
      rw [huniq e (List.mem_cons_self _ _) he]
    · rw [List.find?_cons_of_neg _ (by simp [he])]
      apply ih
      · rcases List.mem_cons.mp hmem with h | h
        · exact absurd (by rw [← h]) he
        · exact h
      · intro e2 he2 h1
        exact huniq e2 (List.mem_cons_of_mem _ he2) h1

theorem range_map_getD {α : Type} {n i : Nat} (hi : i < n) (f : Nat → α) (d : α) :
    ((List.range n).map f).getD i d = f i := by
  rw [List.getD_eq_getElem _ _ (by simpa using hi), List.getElem_map, List.getElem_range]

theorem apply_nov_length (masks : List Mask) (scores : List ℚ) :
    (applyNonOverlappingConstraints masks scores).length = masks.length := by
  unfold applyNonOverlappingConstraints
  split
  · rw [List.length_map]
  · show ((List.range masks.length).map _).length = _
    rw [List.length_map, List.length_range]

theorem apply_nov_getD (masks : List Mask) (scores : List ℚ) (hn : ¬ masks.length ≤ 1)
    (i : Nat) (hi : i < masks.length) :
    (applyNonOverlappingConstraints masks scores).getD i none =
      ((((novOrder (scores.zip masks)).foldl (novStep (scores.zip masks))
          (Mask.zeros (masks.headD (Mask.zeros 0 0)).h (masks.headD (Mask.zeros 0 0)).w,
            [])).2.find? fun p => p.1 == i).map Prod.snd) := by
  unfold applyNonOverlappingConstraints
  rw [if_neg hn]
  exact range_map_getD hi _ _

theorem novPrio_total {scores : List ℚ} {i j : Nat} (hne : i ≠ j) :
    novPrio scores i j ∨ novPrio scores j i := by
  unfold novPrio
  rcases lt_trichotomy (scores.getD i 0) (scores.getD j 0) with h | h | h
  · right; left; exact h
  · rcases Nat.lt_or_ge i j with h2 | h2
    · left; exact Or.inr ⟨h, h2⟩
    · right; exact Or.inr ⟨h.symm, by omega⟩
  · left; left; exact h

theorem novPrio_irrefl (scores : List ℚ) (i : Nat) : ¬ novPrio scores i i := by
  unfold novPrio
  rintro (h | ⟨_, h⟩)
  · exact lt_irrefl _ h
  · omega

theorem novPrio_trans {scores : List ℚ} {a b c : Nat}
    (h1 : novPrio scores a b) (h2 : novPrio scores b c) : novPrio scores a c := by
  unfold novPrio at *
  rcases h1 with h1 | ⟨h1, h1'⟩ <;> rcases h2 with h2 | ⟨h2, h2'⟩
  · left; linarith
  · left; linarith
  · left; linarith
  · right; exact ⟨by linarith, by omega⟩

theorem novPrio_asymm {scores : List ℚ} {a b : Nat}
    (h1 : novPrio scores a b) (h2 : novPrio scores b a) : False := by
  unfold novPrio at *
  rcases h1 with h1 | ⟨h1, h1'⟩ <;> rcases h2 with h2 | ⟨h2, h2'⟩
  · linarith
  · linarith
  · linarith
  · omega

theorem novPrio_min (scores : List ℚ) :
    ∀ l : List Nat, l ≠ [] → ∃ i ∈ l, ∀ j ∈ l, j ≠ i → ¬ novPrio scores j i := by
  intro l
  induction l with
  | nil => intro h; exact absurd rfl h
  | cons a l ih =>
    intro _
    rcases l with _ | ⟨b, l2⟩
    · refine ⟨a, List.mem_cons_self _ _, ?_⟩
      intro j hj hne
      rcases List.mem_cons.mp hj with rfl | h
      · exact absurd rfl hne
      · simp at h
    · obtain ⟨i2, hi2, hmin⟩ := ih (by simp)
      by_cases hai : novPrio scores a i2
      · refine ⟨a, List.mem_cons_self _ _, ?_⟩
        intro j hj hne hprio
        rcases List.mem_cons.mp hj with rfl | h
        · exact absurd rfl hne
        · by_cases hji : j = i2
          · subst hji
            exact novPrio_asymm hprio hai
          · exact hmin j h hji (novPrio_trans hprio hai)
      · refine ⟨i2, List.mem_cons_of_mem _ hi2, ?_⟩
        intro j hj hne hprio
        rcases List.mem_cons.mp hj with rfl | h
        · exact hai hprio
        · exact hmin j h hne hprio

/-- Core of the non-overlap analysis: with equal-shape `H × W` masks and an
all-background initial claim grid of those dimensions, the fold entry found
for index `i` is the input mask minus all pixels of strictly
higher-priority masks. -/
theorem nonoverlap_find (masks : List Mask) (scores : List ℚ) (H W : Nat) (c0 : Mask)
    (hlen : scores.length = masks.length)
    (hdims : ∀ m ∈ masks, m.h = H ∧ m.w = W)
    (hc0h : c0.h = H) (hc0w : c0.w = W)
    (hc0 : ∀ y x, c0.get y x = false)
    (i : Nat) (hi : i < masks.length) :
    ∃ mo : Mask,
      ((((novOrder (scores.zip masks)).foldl (novStep (scores.zip masks)) (c0, [])).2.find?
        fun p => p.1 == i).map Prod.snd) = some mo ∧
      mo.h = H ∧ mo.w = W ∧
      ∀ y x : Nat, y < H → x < W →
        (mo.get y x = true ↔
          ((masks.getD i (Mask.zeros 0 0)).get y x = true ∧
           ∀ j, j < masks.length → novPrio scores j i →
             (masks.getD j (Mask.zeros 0 0)).get y x = false)) := by
  have hplen : (scores.zip masks).length = masks.length := by
    rw [List.length_zip]
    omega
  have hmemi : i ∈ novOrder (scores.zip masks) := by
    unfold novOrder
    rw [mem_sortedRange, hplen]
    exact hi
  obtain ⟨pre, suf, horder⟩ := List.append_of_mem hmemi
  have hnodup : (novOrder (scores.zip masks)).Nodup := by
    unfold novOrder
    exact sortedRange_nodup _ _
  have hmem : (i, novAdj (scores.zip masks) (novClaim (scores.zip masks) pre c0) i) ∈
      (novEntries (scores.zip masks) (novOrder (scores.zip masks)) c0).reverse ++ [] := by
    rw [List.append_nil, List.mem_reverse, horder]
    exact novEntries_mem _ pre i suf c0
  have huniq : ∀ e ∈ (novEntries (scores.zip masks) (novOrder (scores.zip masks))
        c0).reverse ++ [], e.1 = i →
      e = (i, novAdj (scores.zip masks) (novClaim (scores.zip masks) pre c0) i) := by
    intro e he hei
    rw [List.append_nil, List.mem_reverse] at he
    exact novEntries_unique _ _ hnodup c0 i e he hei pre suf horder
  have hmi : masks.getD i (Mask.zeros 0 0) ∈ masks := by
    rw [List.getD_eq_getElem _ _ hi]
    exact List.getElem_mem _
  have hdimi := hdims _ hmi
  refine ⟨novAdj (scores.zip masks) (novClaim (scores.zip masks) pre c0) i, ?_, ?_, ?_, ?_⟩
  · rw [novFold_spec, find?_unique_key hmem huniq]
    rfl
  · show ((scores.zip masks).getD i (0, Mask.zeros 0 0)).2.h = H
    rw [pairs_mask_eq masks scores hlen i]
    exact hdimi.1
  · show ((scores.zip masks).getD i (0, Mask.zeros 0 0)).2.w = W
    rw [pairs_mask_eq masks scores hlen i]
    exact hdimi.2
  · intro y x hy hx
    have hyi : y < ((scores.zip masks).getD i (0, Mask.zeros 0 0)).2.h := by
      rw [pairs_mask_eq masks scores hlen i, hdimi.1]
      exact hy
    have hxi : x < ((scores.zip masks).getD i (0, Mask.zeros 0 0)).2.w := by
      rw [pairs_mask_eq masks scores hlen i, hdimi.2]
      exact hx
    have hget : (novAdj (scores.zip masks) (novClaim (scores.zip masks) pre c0) i).get y x =
        (((scores.zip masks).getD i (0, Mask.zeros 0 0)).2.get y x &&
          !((novClaim (scores.zip masks) pre c0).get y x)) := by
      unfold novAdj
      exact Mask.get_ofFn_of_lt _ hyi hxi
    have hclaim : (novClaim (scores.zip masks) pre c0).get y x =
        pre.any fun j => ((scores.zip masks).getD j (0, Mask.zeros 0 0)).2.get y x := by
      rw [novClaim_get _ pre c0 y x (by rw [hc0h]; exact hy) (by rw [hc0w]; exact hx),
        hc0 y x, Bool.false_or]
    rw [hget, hclaim, pairs_mask_eq masks scores hlen i]
    simp only [Bool.and_eq_true, Bool.not_eq_true']
    constructor
    · rintro ⟨h1, h2⟩
      refine ⟨h1, ?_⟩
      intro j hj hprio
      have hjpre : j ∈ pre := by
        rw [sortedRange_prefix_mem (fun h1 h2 => descOrder_antisymm h1 h2)
          (scores.zip masks).length horder (by omega : j < (scores.zip masks).length)]
        exact (novPrio_iff masks scores hlen j i).mp hprio
      have := List.any_eq_false.mp h2 j hjpre
      rwa [pairs_mask_eq masks scores hlen j, Bool.not_eq_true] at this
    · rintro ⟨h1, h2⟩
      refine ⟨h1, ?_⟩
      rw [List.any_eq_false]
      intro j hjpre
      have hjn : j < (scores.zip masks).length := by
        rw [← mem_sortedRange (descOrder fun t =>
          ((scores.zip masks).getD t (0, Mask.zeros 0 0)).1) (scores.zip masks).length]
        show j ∈ novOrder (scores.zip masks)
        rw [horder]
        exact List.mem_append.mpr (Or.inl hjpre)
      have hprio : novPrio scores j i := by
        rw [novPrio_iff masks scores hlen j i]
        exact (sortedRange_prefix_mem (fun h1 h2 => descOrder_antisymm h1 h2)
          (scores.zip masks).length horder hjn).mp hjpre
      have := h2 j (by omega) hprio
      rw [pairs_mask_eq masks scores hlen j, Bool.not_eq_true]
      exact this

/-- Pointwise description of `apply_non_overlapping_constraints` on equal-shape
inputs: entry `i` of the result is `some` of the input mask `i` restricted to
pixels not covered by any strictly higher-priority mask. -/
theorem nonoverlap_characterization (masks : List Mask) (scores : List ℚ) (H W : Nat)
    (hlen : scores.length = masks.length)
    (hdims : ∀ m ∈ masks, m.h = H ∧ m.w = W)
    (i : Nat) (hi : i < masks.length) :
    ∃ mo : Mask,
      (applyNonOverlappingConstraints masks scores).getD i none = some mo ∧
      mo.h = H ∧ mo.w = W ∧
      ∀ y x : Nat, y < H → x < W →
        (mo.get y x = true ↔
          ((masks.getD i (Mask.zeros 0 0)).get y x = true ∧
           ∀ j, j < masks.length → novPrio scores j i →
             (masks.getD j (Mask.zeros 0 0)).get y x = false)) := by
  have hmi : masks.getD i (Mask.zeros 0 0) ∈ masks := by
    rw [List.getD_eq_getElem _ _ hi]
    exact List.getElem_mem _
  have hdimi := hdims _ hmi
  by_cases hn : masks.length ≤ 1
  · refine ⟨masks.getD i (Mask.zeros 0 0), ?_, hdimi.1, hdimi.2, ?_⟩
    · unfold applyNonOverlappingConstraints
      rw [if_pos hn, List.getD_eq_getElem _ _ (by simpa using hi), List.getElem_map,
        List.getD_eq_getElem _ _ hi]
    · intro y x _ _
      constructor
      · intro h
        refine ⟨h, ?_⟩
        intro j hj hprio
        have : j = i := by omega
        subst this
        exact absurd hprio (novPrio_irrefl scores j)
      · exact fun h => h.1
  · have hne : masks ≠ [] := by
      intro h
      rw [h] at hi
      simp at hi
    have hm0 : masks.headD (Mask.zeros 0 0) ∈ masks := by
      rcases masks with _ | ⟨m, rest⟩
      · exact absurd rfl hne
      · exact List.mem_cons_self _ _
    have hdim0 := hdims _ hm0
    obtain ⟨mo, hfind, hmoh, hmow, hchar⟩ := nonoverlap_find masks scores H W
      (Mask.zeros (masks.headD (Mask.zeros 0 0)).h (masks.headD (Mask.zeros 0 0)).w)
      hlen hdims (hdim0.1) (hdim0.2) (fun y x => zeros_get _ _ y x) i hi
    exact ⟨mo, by rw [apply_nov_getD masks scores hn i hi]; exact hfind, hmoh, hmow, hchar⟩

/-- Concrete non-overlap inputs: the top row of a 2×2 grid, and the full grid. -/
def c4MaskA : Mask := Mask.ofFn 2 2 fun y _ => y == 0

def c4MaskB : Mask := Mask.ofFn 2 2 fun _ _ => true

/-- C4.  `apply_non_overlapping_constraints` on a list of equal-shape `H × W`
masks with parallel scores returns a list of the same length whose `i`-th
entry is `some` output mask derived from the `i`-th input (original order
preserved); each output keeps exactly its own foreground pixels not covered
by any strictly higher-priority mask (higher score, or equal score and
smaller original index — the mask processed first in the stable
descending-score order), so pixels claimed earlier are subtracted; and at
every pixel location at most one output mask is foreground. -/
theorem C4_non_overlap_enforcement (masks : List Mask) (scores : List ℚ) (H W : Nat)
    (hlen : scores.length = masks.length)
    (hdims : ∀ m ∈ masks, m.h = H ∧ m.w = W) :
    ((applyNonOverlappingConstraints masks scores).length = masks.length ∧
     ∀ i, i < masks.length → ∃ mo : Mask,
       (applyNonOverlappingConstraints masks scores).getD i none = some mo ∧
       mo.h = H ∧ mo.w = W ∧
       ∀ y x : Nat, y < H → x < W →
         (mo.get y x = true ↔
           ((masks.getD i (Mask.zeros 0 0)).get y x = true ∧
            ∀ j, j < masks.length → novPrio scores j i →
              (masks.getD j (Mask.zeros 0 0)).get y x = false))) ∧
    (∀ i j, i < masks.length → j < masks.length → i ≠ j →
      ∀ moi moj : Mask,
        (applyNonOverlappingConstraints masks scores).getD i none = some moi →
        (applyNonOverlappingConstraints masks scores).getD j none = some moj →
        ∀ y x : Nat, y < H → x < W →
          ¬(moi.get y x = true ∧ moj.get y x = true)) := by
  refine ⟨⟨apply_nov_length masks scores, ?_⟩, ?_⟩
  · intro i hi
    exact nonoverlap_characterization masks scores H W hlen hdims i hi
  · intro i j hi hj hne moi moj hgi hgj y x hy hx
    rintro ⟨hpi, hpj⟩
    obtain ⟨mi2, hgi2, _, _, hci⟩ :=
      nonoverlap_characterization masks scores H W hlen hdims i hi
    obtain ⟨mj2, hgj2, _, _, hcj⟩ :=
      nonoverlap_characterization masks scores H W hlen hdims j hj
    rw [hgi] at hgi2
    rw [hgj] at hgj2
    obtain rfl : moi = mi2 := Option.some.inj hgi2
    obtain rfl : moj = mj2 := Option.some.inj hgj2
    obtain ⟨hmi, hfi⟩ := (hci y x hy hx).mp hpi
    obtain ⟨hmj, hfj⟩ := (hcj y x hy hx).mp hpj
    rcases novPrio_total hne with hprio | hprio
    · rw [hfj i hi hprio] at hmi
      exact absurd hmi (by decide)
    · rw [hfi j hj hprio] at hmj
      exact absurd hmj (by decide)

theorem C4_non_overlap_enforcement_witness :
    (([(1 : ℚ), 1] : List ℚ).length = [c4MaskA, c4MaskB].length ∧
     (∀ m ∈ [c4MaskA, c4MaskB], m.h = 2 ∧ m.w = 2)) ∧
    (applyNonOverlappingConstraints [c4MaskA, c4MaskB] [(1 : ℚ), 1]).length =
      [c4MaskA, c4MaskB].length :=
  ⟨⟨rfl, by decide⟩,
   (C4_non_overlap_enforcement [c4MaskA, c4MaskB] [(1 : ℚ), 1] 2 2 rfl (by decide)).1.1⟩

/-- C9.  `apply_non_overlapping_constraints` conserves total coverage — a
pixel is covered by some output mask exactly when it is covered by some
input mask (contested pixels are reassigned, never discarded) — and breaks
equal-score ties by original index: when two masks of equal score both cover
a pixel, the output of the larger index never keeps it. -/
theorem C9_coverage_preserved_ties_stable (masks : List Mask) (scores : List ℚ) (H W : Nat)
    (hlen : scores.length = masks.length)
    (hdims : ∀ m ∈ masks, m.h = H ∧ m.w = W) :
    (∀ y x : Nat, y < H → x < W →
      ((∃ i, i < masks.length ∧ ∃ mo : Mask,
          (applyNonOverlappingConstraints masks scores).getD i none = some mo ∧
          mo.get y x = true) ↔
        ∃ i, i < masks.length ∧ (masks.getD i (Mask.zeros 0 0)).get y x = true)) ∧
    (∀ i j, i < j → j < masks.length → scores.getD i 0 = scores.getD j 0 →
      ∀ y x : Nat, y < H → x < W →
        (masks.getD i (Mask.zeros 0 0)).get y x = true →
        ∀ mo : Mask,
          (applyNonOverlappingConstraints masks scores).getD j none = some mo →
          mo.get y x = false) := by
  constructor
  · intro y x hy hx
    constructor
    · rintro ⟨i, hi, mo, hg, hp⟩
      obtain ⟨mo2, hg2, _, _, hchar⟩ :=
        nonoverlap_characterization masks scores H W hlen hdims i hi
      rw [hg] at hg2
      obtain rfl : mo = mo2 := Option.some.inj hg2
      exact ⟨i, hi, ((hchar y x hy hx).mp hp).1⟩
    · rintro ⟨i0, hi0, hp0⟩
      have hi0S : i0 ∈ (List.range masks.length).filter
          (fun j => (masks.getD j (Mask.zeros 0 0)).get y x) :=
        List.mem_filter.mpr ⟨List.mem_range.mpr hi0, hp0⟩
      obtain ⟨im, himS, hmin⟩ := novPrio_min scores
        ((List.range masks.length).filter
          (fun j => (masks.getD j (Mask.zeros 0 0)).get y x))
        (List.ne_nil_of_mem hi0S)
      obtain ⟨himr, hpim⟩ := List.mem_filter.mp himS
      have him : im < masks.length := List.mem_range.mp himr
      obtain ⟨mo, hg, _, _, hchar⟩ :=
        nonoverlap_characterization masks scores H W hlen hdims im him
      refine ⟨im, him, mo, hg, ?_⟩
      rw [hchar y x hy hx]
      refine ⟨hpim, ?_⟩
      intro j hj hprio
      rcases Bool.eq_false_or_eq_true ((masks.getD j (Mask.zeros 0 0)).get y x) with hb | hb
      · exfalso
        have hjS : j ∈ (List.range masks.length).filter
            (fun t => (masks.getD t (Mask.zeros 0 0)).get y x) :=
          List.mem_filter.mpr ⟨List.mem_range.mpr hj, hb⟩
        have hne : j ≠ im := by
          intro h
          exact novPrio_irrefl scores im (h ▸ hprio)
        exact hmin j hjS hne hprio
      · exact hb
  · intro i j hij hj hsc y x hy hx hpi mo hg
    obtain ⟨mo2, hg2, _, _, hchar⟩ :=
      nonoverlap_characterization masks scores H W hlen hdims j hj
    rw [hg] at hg2
    obtain rfl : mo = mo2 := Option.some.inj hg2
    rcases Bool.eq_false_or_eq_true (mo.get y x) with hb | hb
    · exfalso
      have hprio : novPrio scores i j := Or.inr ⟨hsc, hij⟩
      have := ((hchar y x hy hx).mp hb).2 i (by omega) hprio
      rw [hpi] at this
      exact absurd this (by decide)
    · exact hb

theorem C9_coverage_preserved_ties_stable_witness :
    (([(1 : ℚ), 1] : List ℚ).length = [c4MaskA, c4MaskB].length ∧
     (∀ m ∈ [c4MaskA, c4MaskB], m.h = 2 ∧ m.w = 2)) ∧
    (∀ y x : Nat, y < 2 → x < 2 →
      ((∃ i, i < [c4MaskA, c4MaskB].length ∧ ∃ mo : Mask,
          (applyNonOverlappingConstraints [c4MaskA, c4MaskB] [(1 : ℚ), 1]).getD i none =
            some mo ∧ mo.get y x = true) ↔
        ∃ i, i < [c4MaskA, c4MaskB].length ∧
          ([c4MaskA, c4MaskB].getD i (Mask.zeros 0 0)).get y x = true)) :=
  ⟨⟨rfl, by decide⟩,
   (C9_coverage_preserved_ties_stable [c4MaskA, c4MaskB] [(1 : ℚ), 1] 2 2 rfl
     (by decide)).1⟩

/-! ## Claim C1: monotonicity of hole filling -/

/-- C1.  Counterexample to "`fill_all_holes` never decreases the foreground
pixel count": on a fully-foreground 2×2 mask, the flood-fill variant seeds
`cv2.floodFill` at the corners — which are foreground — so the whole
foreground 4-connected component is painted with the background marker 128
and the output is empty: 4 foreground pixels in, 0 out. -/
theorem C1_fill_holes_counterexample :
    (Mask.ofFn 2 2 fun _ _ => true).count = 4 ∧
    (fillAllHoles (Mask.ofFn 2 2 fun _ _ => true) false).count = 0 := by
  constructor
  · decide
  · decide

theorem inTriangle_self (p : Int × Int) : inTriangle p p p p = true := by
  unfold inTriangle cross2
  simp

theorem floodStep_inv (g : NatGrid) (sv : Nat) (vis : Mask)
    (h : ∀ y x, vis.get y x = true → g.get y x = sv) :
    ∀ y x, (floodStep g sv vis).get y x = true → g.get y x = sv := by
  intro y x hv
  unfold floodStep at hv
  rw [Mask.get_ofFn] at hv
  by_cases hb : y < vis.h ∧ x < vis.w
  · rw [if_pos hb] at hv
    simp only [Bool.or_eq_true, Bool.and_eq_true, beq_iff_eq] at hv
    rcases hv with hv | ⟨hv, _⟩
    · exact h y x hv
    · exact hv
  · rw [if_neg hb] at hv
    exact absurd hv (by decide)

theorem iterate_floodStep_inv (g : NatGrid) (sv : Nat) :
    ∀ (n : Nat) (vis : Mask), (∀ y x, vis.get y x = true → g.get y x = sv) →
      ∀ y x, ((floodStep g sv)^[n] vis).get y x = true → g.get y x = sv := by
  intro n
  induction n with
  | zero => intro vis h y x hv; exact h y x hv
  | succ n ih =>
    intro vis h y x hv
    rw [Function.iterate_succ_apply] at hv
    exact ih _ (floodStep_inv g sv vis h) y x hv

/-- Every pixel reached by the flood expansion holds the seed's value. -/
theorem floodReach_subset (g : NatGrid) (s : Nat × Nat) (y x : Nat)
    (hr : (floodReach g s).get y x = true) : g.get y x = g.get s.1 s.2 := by
  unfold floodReach at hr
  refine iterate_floodStep_inv g (g.get s.1 s.2) (g.h * g.w) _ ?_ y x hr
  intro y2 x2 hv
  rw [Mask.get_ofFn] at hv
  by_cases hb : y2 < g.h ∧ x2 < g.w
  · rw [if_pos hb] at hv
    simp only [Bool.and_eq_true, beq_iff_eq] at hv
    rw [hv.1, hv.2]
  · rw [if_neg hb] at hv
    exact absurd hv (by decide)

/-- `floodPaint` leaves every in-bounds pixel whose value differs from the
seed's value unchanged. -/
theorem floodPaint_preserve (g : NatGrid) (s : Nat × Nat) (y x : Nat)
    (hv : g.get y x ≠ g.get s.1 s.2) (hy : y < g.h) (hx : x < g.w) :
    (floodPaint g s).get y x = g.get y x := by
  unfold floodPaint
  rw [NatGrid.getN_ofFn, if_pos ⟨hy, hx⟩]
  rcases Bool.eq_false_or_eq_true ((floodReach g s).get y x) with hr | hr
  · exact absurd (floodReach_subset g s y x hr) hv
  · rw [hr]
    simp

/-- After `floodPaint`, an in-bounds pixel holds 128 or its previous value. -/
theorem floodPaint_get_cases (g : NatGrid) (s : Nat × Nat) (y x : Nat)
    (hy : y < g.h) (hx : x < g.w) :
    (floodPaint g s).get y x = 128 ∨ (floodPaint g s).get y x = g.get y x := by
  unfold floodPaint
  rw [NatGrid.getN_ofFn, if_pos ⟨hy, hx⟩]
  split
  · left; rfl
  · right; rfl

def ffG0 (m : Mask) : NatGrid :=
  NatGrid.ofFn m.h m.w fun y x => if m.get y x then 255 else 0

def ffG1 (m : Mask) : NatGrid := floodPaint (ffG0 m) (0, 0)

def ffG2 (m : Mask) : NatGrid := floodPaint (ffG1 m) (0, m.w - 1)

def ffG3 (m : Mask) : NatGrid := floodPaint (ffG2 m) (m.h - 1, 0)

def ffG4 (m : Mask) : NatGrid := floodPaint (ffG3 m) (m.h - 1, m.w - 1)

theorem fillWithFloodFill_eq (m : Mask) :
    fillWithFloodFill m = Mask.ofFn m.h m.w fun y x => (ffG4 m).get y x != 128 := rfl

/-- When all four corners are background, the flood-fill hole filling keeps
every foreground pixel: the corner seeds never hold the foreground value, so
no flood component contains a foreground pixel. -/
theorem fillWithFloodFill_monotone (m : Mask)
    (hc1 : m.get 0 0 = false) (hc2 : m.get 0 (m.w - 1) = false)
    (hc3 : m.get (m.h - 1) 0 = false) (hc4 : m.get (m.h - 1) (m.w - 1) = false)
    (y x : Nat) (hy : y < m.h) (hx : x < m.w) (hget : m.get y x = true) :
    (fillWithFloodFill m).get y x = true := by
  have hy0 : 0 < m.h := by omega
  have hx0 : 0 < m.w := by omega
  have hh1 : m.h - 1 < m.h := by omega
  have hw1 : m.w - 1 < m.w := by omega
  have h0p : (ffG0 m).get y x = 255 := by
    unfold ffG0
    rw [NatGrid.getN_ofFn, if_pos ⟨hy, hx⟩, hget]
    rfl
  have h0c1 : (ffG0 m).get 0 0 = 0 := by
    unfold ffG0
    rw [NatGrid.getN_ofFn, if_pos ⟨hy0, hx0⟩, hc1]
    rfl
  have h0c2 : (ffG0 m).get 0 (m.w - 1) = 0 := by
    unfold ffG0
    rw [NatGrid.getN_ofFn, if_pos ⟨hy0, hw1⟩, hc2]
    rfl
  have h0c3 : (ffG0 m).get (m.h - 1) 0 = 0 := by
    unfold ffG0
    rw [NatGrid.getN_ofFn, if_pos ⟨hh1, hx0⟩, hc3]
    rfl
  have h0c4 : (ffG0 m).get (m.h - 1) (m.w - 1) = 0 := by
    unfold ffG0
    rw [NatGrid.getN_ofFn, if_pos ⟨hh1, hw1⟩, hc4]
    rfl
  have h1p : (ffG1 m).get y x = 255 := by
    unfold ffG1
    refine (floodPaint_preserve (ffG0 m) (0, 0) y x ?_ hy hx).trans h0p
    show (ffG0 m).get y x ≠ (ffG0 m).get 0 0
    rw [h0p, h0c1]
    decide
  have h1c2 : (ffG1 m).get 0 (m.w - 1) = 128 ∨ (ffG1 m).get 0 (m.w - 1) = 0 := by
    unfold ffG1
    rcases floodPaint_get_cases (ffG0 m) (0, 0) 0 (m.w - 1) hy0 hw1 with h | h
    · left; exact h
    · right; rw [h]; exact h0c2
  have h1c3 : (ffG1 m).get (m.h - 1) 0 = 128 ∨ (ffG1 m).get (m.h - 1) 0 = 0 := by
    unfold ffG1
    rcases floodPaint_get_cases (ffG0 m) (0, 0) (m.h - 1) 0 hh1 hx0 with h | h
    · left; exact h
    · right; rw [h]; exact h0c3
  have h1c4 : (ffG1 m).get (m.h - 1) (m.w - 1) = 128 ∨
      (ffG1 m).get (m.h - 1) (m.w - 1) = 0 := by
    unfold ffG1
    rcases floodPaint_get_cases (ffG0 m) (0, 0) (m.h - 1) (m.w - 1) hh1 hw1 with h | h
    · left; exact h
    · right; rw [h]; exact h0c4
  have h2p : (ffG2 m).get y x = 255 := by
    unfold ffG2
    refine (floodPaint_preserve (ffG1 m) (0, m.w - 1) y x ?_ hy hx).trans h1p
    show (ffG1 m).get y x ≠ (ffG1 m).get 0 (m.w - 1)
    rw [h1p]
    rcases h1c2 with h | h <;> rw [h] <;> decide
  have h2c3 : (ffG2 m).get (m.h - 1) 0 = 128 ∨ (ffG2 m).get (m.h - 1) 0 = 0 := by
    unfold ffG2
    rcases floodPaint_get_cases (ffG1 m) (0, m.w - 1) (m.h - 1) 0 hh1 hx0 with h | h
    · left; exact h
    · rw [h]; exact h1c3
  have h2c4 : (ffG2 m).get (m.h - 1) (m.w - 1) = 128 ∨
      (ffG2 m).get (m.h - 1) (m.w - 1) = 0 := by
    unfold ffG2
    rcases floodPaint_get_cases (ffG1 m) (0, m.w - 1) (m.h - 1) (m.w - 1) hh1 hw1 with h | h
    · left; exact h
    · rw [h]; exact h1c4
  have h3p : (ffG3 m).get y x = 255 := by
    unfold ffG3
    refine (floodPaint_preserve (ffG2 m) (m.h - 1, 0) y x ?_ hy hx).trans h2p
    show (ffG2 m).get y x ≠ (ffG2 m).get (m.h - 1) 0
    rw [h2p]
    rcases h2c3 with h | h <;> rw [h] <;> decide
  have h3c4 : (ffG3 m).get (m.h - 1) (m.w - 1) = 128 ∨
      (ffG3 m).get (m.h - 1) (m.w - 1) = 0 := by
    unfold ffG3
    rcases floodPaint_get_cases (ffG2 m) (m.h - 1, 0) (m.h - 1) (m.w - 1) hh1 hw1 with h | h
    · left; exact h
    · rw [h]; exact h2c4
  have h4p : (ffG4 m).get y x = 255 := by
    unfold ffG4
    refine (floodPaint_preserve (ffG3 m) (m.h - 1, m.w - 1) y x ?_ hy hx).trans h3p
    show (ffG3 m).get y x ≠ (ffG3 m).get (m.h - 1) (m.w - 1)
    rw [h3p]
    rcases h3c4 with h | h <;> rw [h] <;> decide
  rw [fillWithFloodFill_eq, Mask.get_ofFn_of_lt _ hy hx, h4p]
  decide

/-- C1 (amended).  The convex-hull variant of `fill_all_holes` never drops a
foreground pixel, and the flood-fill variant never drops a foreground pixel
provided all four image corners are background; with a foreground corner the
flood fill erases the corner's whole foreground component (see the
counterexample). -/
theorem C1_fill_holes_monotone_amended :
    (∀ (m : Mask) (y x : Nat), y < m.h → x < m.w → m.get y x = true →
      (fillAllHoles m true).get y x = true) ∧
    (∀ (m : Mask), m.get 0 0 = false → m.get 0 (m.w - 1) = false →
      m.get (m.h - 1) 0 = false → m.get (m.h - 1) (m.w - 1) = false →
      ∀ (y x : Nat), y < m.h → x < m.w → m.get y x = true →
        (fillAllHoles m false).get y x = true) := by
  constructor
  · intro m y x hy hx hget
    unfold fillAllHoles
    rw [if_neg (Nat.mul_pos (by omega) (by omega)).ne', if_pos rfl]
    unfold fillWithConvexHull
    split
    · exact hget
    · rw [Mask.get_ofFn_of_lt _ hy hx]
      have hp := mem_fgPoints_of_get hy hx hget
      unfold inHull
      rw [List.any_eq_true]
      refine ⟨_, hp, ?_⟩
      rw [List.any_eq_true]
      refine ⟨_, hp, ?_⟩
      rw [List.any_eq_true]
      exact ⟨_, hp, inTriangle_self _⟩
  · intro m hc1 hc2 hc3 hc4 y x hy hx hget
    unfold fillAllHoles
    rw [if_neg (Nat.mul_pos (by omega) (by omega)).ne', if_neg (by decide)]
    exact fillWithFloodFill_monotone m hc1 hc2 hc3 hc4 y x hy hx hget

/-- A 5×5 ring with background corners and a one-pixel hole at the centre. -/
def c1Ring : Mask :=
  Mask.ofFn 5 5 fun y x =>
    decide (1 ≤ y ∧ y ≤ 3 ∧ 1 ≤ x ∧ x ≤ 3 ∧ ¬(y = 2 ∧ x = 2))

theorem C1_fill_holes_monotone_amended_witness :
    (2 < c1Ring.h ∧ 1 < c1Ring.w ∧ c1Ring.get 2 1 = true ∧
     c1Ring.get 0 0 = false ∧ c1Ring.get 0 (c1Ring.w - 1) = false ∧
     c1Ring.get (c1Ring.h - 1) 0 = false ∧ c1Ring.get (c1Ring.h - 1) (c1Ring.w - 1) = false) ∧
    (fillAllHoles c1Ring true).get 2 1 = true ∧
    (fillAllHoles c1Ring false).get 2 1 = true :=
  ⟨⟨by decide, by decide, by decide, by decide, by decide, by decide, by decide⟩,
   C1_fill_holes_monotone_amended.1 c1Ring 2 1 (by decide) (by decide) (by decide),
   C1_fill_holes_monotone_amended.2 c1Ring (by decide) (by decide) (by decide) (by decide)
     2 1 (by decide) (by decide) (by decide)⟩

/-! ## Claim C3: idempotence of `postprocess_mask_for_drawings` -/

/-- A 6×4 mask holding a single 3-pixel horizontal segment. -/
def c3Mask : Mask := Mask.ofFn 6 4 fun y x => y == 2 && decide (x ≤ 2)

/-- First application (convex-hull fill, closing k=5): the hull adds nothing,
but the closing (whose erosion treats out-of-image pixels as foreground) grows
a vertical arm along the left border. -/
def c3Out1 : Mask :=
  Mask.ofFn 6 4 fun y x => (y == 2 && decide (x ≤ 2)) || (x == 0 && decide (y ≤ 2))

/-- Second application: the hull of the L-shape fills the top-left triangle
and the closing thickens it further — strictly more pixels than `c3Out1`. -/
def c3Out2 : Mask :=
  Mask.ofFn 6 4 fun y x => decide (y ≤ 1) || (y == 2 && decide (x ≤ 2))

theorem c3_step1 :
    postprocessMaskForDrawings c3Mask false true true 5 (1 / 1000)
      FillMethod.convexHull none 5 = c3Out1 := by
  unfold postprocessMaskForDrawings
  rw [if_neg (by decide), if_neg (by decide)]
  show (if ((drawingsStages c3Mask false true true 5 FillMethod.convexHull none 5).count : ℚ) <
      ((c3Mask.h * c3Mask.w : Nat) : ℚ) * (1 / 1000)
    then Mask.zeros (drawingsStages c3Mask false true true 5 FillMethod.convexHull none 5).h
      (drawingsStages c3Mask false true true 5 FillMethod.convexHull none 5).w
    else drawingsStages c3Mask false true true 5 FillMethod.convexHull none 5) = c3Out1
  rw [show drawingsStages c3Mask false true true 5 FillMethod.convexHull none 5 = c3Out1
    from by decide]
  rw [show c3Out1.count = 5 from by decide, show c3Mask.h = 6 from rfl,
    show c3Mask.w = 4 from rfl]
  rw [if_neg (by norm_num)]

theorem c3_step2 :
    postprocessMaskForDrawings c3Out1 false true true 5 (1 / 1000)
      FillMethod.convexHull none 5 = c3Out2 := by
  unfold postprocessMaskForDrawings
  rw [if_neg (by decide), if_neg (by decide)]
  show (if ((drawingsStages c3Out1 false true true 5 FillMethod.convexHull none 5).count : ℚ) <
      ((c3Out1.h * c3Out1.w : Nat) : ℚ) * (1 / 1000)
    then Mask.zeros (drawingsStages c3Out1 false true true 5 FillMethod.convexHull none 5).h
      (drawingsStages c3Out1 false true true 5 FillMethod.convexHull none 5).w
    else drawingsStages c3Out1 false true true 5 FillMethod.convexHull none 5) = c3Out2
  rw [show drawingsStages c3Out1 false true true 5 FillMethod.convexHull none 5 = c3Out2
    from by decide]
  rw [show c3Out2.count = 11 from by decide, show c3Out1.h = 6 from rfl,
    show c3Out1.w = 4 from rfl]
  rw [if_neg (by norm_num)]

/-- C3.  Counterexample to idempotence of `postprocess_mask_for_drawings`:
with the convex-hull fill method, closing kernel 5 and
`min_area_ratio = 1/1000`, a 6×4 mask holding one 3-pixel segment maps to an
L-shape (5 pixels) whose second cleanup adds six more pixels — the second
application differs from the first. -/
theorem C3_drawings_not_idempotent :
    postprocessMaskForDrawings
        (postprocessMaskForDrawings c3Mask false true true 5 (1 / 1000)
          FillMethod.convexHull none 5)
        false true true 5 (1 / 1000) FillMethod.convexHull none 5 ≠
      postprocessMaskForDrawings c3Mask false true true 5 (1 / 1000)
        FillMethod.convexHull none 5 := by
  rw [c3_step1, c3_step2]
  decide

theorem zeros_count (h w : Nat) : (Mask.zeros h w).count = 0 := by
  unfold Mask.zeros Mask.ofFn Mask.count
  simp [List.countP_eq_zero]

theorem drawingsStages_boxFill_eq (m : Mask) (kl am : Bool) (mk : Nat) (b : Box)
    (mfk : Nat) :
    drawingsStages m kl true am mk FillMethod.boxFill (some b) mfk =
      (if am && decide (0 < mk) then morphClose mk (fillWithBox m b (2 / 100))
       else fillWithBox m b (2 / 100)) := by
  cases kl <;> rfl

theorem fillWithBox_congr (m1 m2 : Mask) (b : Box) (r : ℚ)
    (hh : m1.h = m2.h) (hw : m1.w = m2.w) :
    fillWithBox m1 b r = fillWithBox m2 b r := by
  unfold fillWithBox
  simp only [hh, hw]

theorem drawingsStages_boxFill_h (m : Mask) (kl am : Bool) (mk : Nat) (b : Box)
    (mfk : Nat) :
    (drawingsStages m kl true am mk FillMethod.boxFill (some b) mfk).h = m.h := by
  rw [drawingsStages_boxFill_eq]
  split <;> rfl

theorem drawingsStages_boxFill_w (m : Mask) (kl am : Bool) (mk : Nat) (b : Box)
    (mfk : Nat) :
    (drawingsStages m kl true am mk FillMethod.boxFill (some b) mfk).w = m.w := by
  rw [drawingsStages_boxFill_eq]
  split <;> rfl

/-- C3 (amended).  With the `box_fill` method and a provided box,
`postprocess_mask_for_drawings` is idempotent for every mask, configuration
flags, kernel sizes and area threshold: the filled box depends only on the
mask's dimensions, which the pipeline preserves, so a second application
reproduces the first (and the guard's all-zero output is a fixed point).
With the default convex-hull method, idempotence fails (see the
counterexample). -/
theorem C3_drawings_box_fill_idempotent (m : Mask) (kl am : Bool) (mk : Nat)
    (mar : ℚ) (b : Box) (mfk : Nat) :
    postprocessMaskForDrawings
        (postprocessMaskForDrawings m kl true am mk mar FillMethod.boxFill (some b) mfk)
        kl true am mk mar FillMethod.boxFill (some b) mfk =
      postprocessMaskForDrawings m kl true am mk mar FillMethod.boxFill (some b) mfk := by
  by_cases hA : m.h * m.w = 0
  · have hO : postprocessMaskForDrawings m kl true am mk mar FillMethod.boxFill (some b)
        mfk = m := by
      unfold postprocessMaskForDrawings
      rw [if_pos hA]
    rw [hO]
    exact hO
  by_cases hB : m.count = 0
  · have hO : postprocessMaskForDrawings m kl true am mk mar FillMethod.boxFill (some b)
        mfk = m := by
      unfold postprocessMaskForDrawings
      rw [if_neg hA, if_pos hB]
    rw [hO]
    exact hO
  have hO : postprocessMaskForDrawings m kl true am mk mar FillMethod.boxFill (some b) mfk =
      (if ((drawingsStages m kl true am mk FillMethod.boxFill (some b) mfk).count : ℚ) <
          ((m.h * m.w : Nat) : ℚ) * mar
       then Mask.zeros (drawingsStages m kl true am mk FillMethod.boxFill (some b) mfk).h
              (drawingsStages m kl true am mk FillMethod.boxFill (some b) mfk).w
       else drawingsStages m kl true am mk FillMethod.boxFill (some b) mfk) := by
    unfold postprocessMaskForDrawings
    rw [if_neg hA, if_neg hB]
  by_cases hg : ((drawingsStages m kl true am mk FillMethod.boxFill (some b) mfk).count : ℚ) <
      ((m.h * m.w : Nat) : ℚ) * mar
  · rw [hO, if_pos hg]
    unfold postprocessMaskForDrawings
    have hzA : ¬ ((Mask.zeros (drawingsStages m kl true am mk FillMethod.boxFill (some b)
          mfk).h (drawingsStages m kl true am mk FillMethod.boxFill (some b) mfk).w).h *
        (Mask.zeros (drawingsStages m kl true am mk FillMethod.boxFill (some b) mfk).h
          (drawingsStages m kl true am mk FillMethod.boxFill (some b) mfk).w).w = 0) := by
      show ¬ ((drawingsStages m kl true am mk FillMethod.boxFill (some b) mfk).h *
        (drawingsStages m kl true am mk FillMethod.boxFill (some b) mfk).w = 0)
      rw [drawingsStages_boxFill_h, drawingsStages_boxFill_w]
      exact hA
    rw [if_neg hzA, if_pos (zeros_count _ _)]
  · rw [hO, if_neg hg]
    set P := drawingsStages m kl true am mk FillMethod.boxFill (some b) mfk with hP
    have hPh : P.h = m.h := by
      rw [hP]
      exact drawingsStages_boxFill_h m kl am mk b mfk
    have hPw : P.w = m.w := by
      rw [hP]
      exact drawingsStages_boxFill_w m kl am mk b mfk
    unfold postprocessMaskForDrawings
    rw [if_neg (by rw [hPh, hPw]; exact hA)]
    by_cases hPc : P.count = 0
    · rw [if_pos hPc]
    · rw [if_neg hPc]
      have hst : drawingsStages P kl true am mk FillMethod.boxFill (some b) mfk =
          drawingsStages m kl true am mk FillMethod.boxFill (some b) mfk := by
        rw [drawingsStages_boxFill_eq, drawingsStages_boxFill_eq,
          fillWithBox_congr P m b (2 / 100) hPh hPw]
      rw [← hP] at hst
      show (if ((drawingsStages P kl true am mk FillMethod.boxFill (some b) mfk).count : ℚ) <
          ((P.h * P.w : Nat) : ℚ) * mar
        then Mask.zeros (drawingsStages P kl true am mk FillMethod.boxFill (some b) mfk).h
          (drawingsStages P kl true am mk FillMethod.boxFill (some b) mfk).w
        else drawingsStages P kl true am mk FillMethod.boxFill (some b) mfk) = P
      rw [hst, hPh, hPw, if_neg hg]

/-! ## Claim C7: the minimum-area-ratio guard -/

/-- 100 foreground pixels (coverage 0.0001) on a 1000×1000 image: the first
and last column of the top 50 rows. -/
def c7Mask : Mask :=
  Mask.ofFn 1000 1000 fun y x => decide (y < 50) && (x == 0 || x == 999)

theorem sum_range_if (c : Nat) : ∀ (n k : Nat),
    ((List.range n).map fun y => if y < k then c else 0).sum = min k n * c := by
  intro n
  induction n with
  | zero => intro k; simp
  | succ n ih =>
    intro k
    rw [List.range_succ, List.map_append, List.sum_append, ih]
    by_cases h2 : k ≤ n
    · rw [show ((List.map (fun y => if y < k then c else 0) [n]).sum = 0) from by
        simp [show ¬ n < k from by omega]]
      rw [show min k (n + 1) = min k n from by omega, Nat.add_zero]
    · rw [show ((List.map (fun y => if y < k then c else 0) [n]).sum = c) from by
        simp [show n < k from by omega]]
      rw [show min k (n + 1) = n + 1 from by omega, show min k n = n from by omega]
      ring

set_option maxRecDepth 40000 in
theorem c7Mask_count : c7Mask.count = 100 := by
  show (((List.range 1000).map fun y => (List.range 1000).map fun x =>
      decide (y < 50) && (x == 0 || x == 999)).map (List.countP id)).sum = 100
  rw [List.map_map]
  rw [List.map_congr_left (g := fun y => if y < 50 then 2 else 0) ?_]
  · rw [sum_range_if]
    decide
  · intro y _
    show List.countP id ((List.range 1000).map fun x =>
      decide (y < 50) && (x == 0 || x == 999)) = _
    rw [List.countP_map]
    show List.countP (id ∘ fun x => decide (y < 50) && (x == 0 || x == 999))
        (List.range 1000) = if y < 50 then 2 else 0
    by_cases hy : y < 50
    · rw [if_pos hy]
      rw [List.countP_congr (q := fun x => x == 0 || x == 999) ?_]
      · decide
      · intro x _
        show (id (decide (y < 50) && (x == 0 || x == 999)) = true) ↔ _
        rw [id, decide_eq_true hy, Bool.true_and]
    · rw [if_neg hy]
      apply List.countP_eq_zero.mpr
      intro x _
      show ¬ (id (decide (y < 50) && (x == 0 || x == 999)) = true)
      rw [id, decide_eq_false hy, Bool.false_and]
      decide

theorem count_ofFn_ge_row (h w : Nat) (f : Nat → Nat → Bool) (y0 : Nat) (hy : y0 < h)
    (hrow : ∀ x, x < w → f y0 x = true) : w ≤ (Mask.ofFn h w f).count := by
  show w ≤ ((((List.range h).map fun y => (List.range w).map fun x => f y x).map
    (List.countP id)).sum)
  rw [List.map_map]
  have hmem : w ∈ (List.range h).map
      (List.countP id ∘ fun y => (List.range w).map fun x => f y x) := by
    rw [List.mem_map]
    refine ⟨y0, List.mem_range.mpr hy, ?_⟩
    show List.countP id ((List.range w).map fun x => f y0 x) = w
    rw [List.countP_map]
    rw [List.countP_eq_length.mpr ?_]
    · rw [List.length_range]
    · intro x hx
      show id (f y0 x) = true
      rw [id]
      exact hrow x (List.mem_range.mp hx)
  exact List.single_le_sum (fun x _ => Nat.zero_le x) w hmem

set_option maxRecDepth 40000 in
theorem c7_hull_row (x : Nat) (hx : x < 1000) :
    inHull (fgPoints c7Mask) ((x : Int), (10 : Int)) = true := by
  have hpa : ((0 : Int), (10 : Int)) ∈ fgPoints c7Mask :=
    mem_fgPoints_of_get (by decide) (by decide) (by decide)
  have hpb : ((999 : Int), (10 : Int)) ∈ fgPoints c7Mask :=
    mem_fgPoints_of_get (by decide) (by decide) (by decide)
  unfold inHull
  rw [List.any_eq_true]
  refine ⟨_, hpa, ?_⟩
  rw [List.any_eq_true]
  refine ⟨_, hpb, ?_⟩
  rw [List.any_eq_true]
  refine ⟨_, hpb, ?_⟩
  unfold inTriangle cross2
  simp
  omega

theorem drawingsStages_convexHull_eq (m : Mask) (mk mfk : Nat) :
    drawingsStages m false true false mk FillMethod.convexHull none mfk =
      fillAllHoles m true := by
  rfl

theorem c7_stages_eq :
    drawingsStages c7Mask false true false 5 FillMethod.convexHull none 5 =
      fillWithConvexHull c7Mask := by
  rw [drawingsStages_convexHull_eq]
  unfold fillAllHoles
  rw [if_neg (by decide), if_pos rfl]

set_option maxRecDepth 40000 in
theorem c7_fill_eq :
    fillWithConvexHull c7Mask =
      Mask.ofFn c7Mask.h c7Mask.w fun y x =>
        inHull (fgPoints c7Mask) ((x : Int), (y : Int)) := by
  unfold fillWithConvexHull
  rw [if_neg (List.ne_nil_of_mem
    (mem_fgPoints_of_get (m := c7Mask) (y := 10) (x := 0)
      (by decide) (by decide) (by decide)))]

theorem c7_fill_count : 1000 ≤ (fillWithConvexHull c7Mask).count := by
  rw [c7_fill_eq]
  refine count_ofFn_ge_row _ _ _ 10 (by decide) ?_
  intro x hx
  exact c7_hull_row x hx

theorem c7_guard :
    ¬ ((fillWithConvexHull c7Mask).count : ℚ) <
      ((c7Mask.h * c7Mask.w : Nat) : ℚ) * (1 / 1000) := by
  have h1 : (1000 : ℚ) ≤ ((fillWithConvexHull c7Mask).count : ℚ) := by
    exact_mod_cast c7_fill_count
  rw [show c7Mask.h = 1000 from rfl, show c7Mask.w = 1000 from rfl]
  intro h
  rw [show ((1000 * 1000 : Nat) : ℚ) * (1 / 1000) = 1000 from by norm_num] at h
  linarith

/-- C7.  Counterexample to "any mask covering ratio 0.0001 of a 1000×1000
image yields an all-false mask under `min_area_ratio = 0.001`": the guard
tests the FINAL pixel count, after hole filling.  100 foreground pixels
placed on the borders of the top 50 rows hull-fill to at least a full
1000-pixel row, so the guard passes and the output keeps foreground
(pixel (10, 500) is set). -/
theorem C7_min_area_guard_counterexample :
    c7Mask.h = 1000 ∧ c7Mask.w = 1000 ∧ c7Mask.count = 100 ∧
    (postprocessMaskForDrawings c7Mask false true false 5 (1 / 1000)
      FillMethod.convexHull none 5).get 10 500 = true := by
  refine ⟨rfl, rfl, c7Mask_count, ?_⟩
  unfold postprocessMaskForDrawings
  rw [if_neg (by decide), if_neg (by rw [c7Mask_count]; decide)]
  show (if ((drawingsStages c7Mask false true false 5 FillMethod.convexHull none 5).count :
      ℚ) < ((c7Mask.h * c7Mask.w : Nat) : ℚ) * (1 / 1000)
    then Mask.zeros (drawingsStages c7Mask false true false 5 FillMethod.convexHull none 5).h
      (drawingsStages c7Mask false true false 5 FillMethod.convexHull none 5).w
    else drawingsStages c7Mask false true false 5 FillMethod.convexHull none 5).get 10 500 =
    true
  rw [c7_stages_eq, if_neg c7_guard, c7_fill_eq,
    Mask.get_ofFn_of_lt _ (by decide) (by decide)]
  exact c7_hull_row 500 (by omega)

/-- C7 (amended).  The minimum-area-ratio guard of
`postprocess_mask_for_drawings` acts on the FINAL pixel count, after the
cleanup stages: on a nonempty mask, if the processed result's area is below
`total_pixels * min_area_ratio` the function returns an all-false mask, and
otherwise it returns the processed result unchanged.  An input of small
coverage whose hole filling inflates the area above the threshold is NOT
rejected (see the counterexample). -/
theorem C7_min_area_guard_final_area (m : Mask) (kl fh am : Bool) (mk : Nat) (mar : ℚ)
    (fm : FillMethod) (box : Option Box) (mfk : Nat)
    (hA : ¬ m.h * m.w = 0) (hB : ¬ m.count = 0) :
    (((drawingsStages m kl fh am mk fm box mfk).count : ℚ) <
        ((m.h * m.w : Nat) : ℚ) * mar →
      ∀ y x, (postprocessMaskForDrawings m kl fh am mk mar fm box mfk).get y x = false) ∧
    (¬ ((drawingsStages m kl fh am mk fm box mfk).count : ℚ) <
        ((m.h * m.w : Nat) : ℚ) * mar →
      postprocessMaskForDrawings m kl fh am mk mar fm box mfk =
        drawingsStages m kl fh am mk fm box mfk) := by
  have hO : postprocessMaskForDrawings m kl fh am mk mar fm box mfk =
      (if ((drawingsStages m kl fh am mk fm box mfk).count : ℚ) <
          ((m.h * m.w : Nat) : ℚ) * mar
       then Mask.zeros (drawingsStages m kl fh am mk fm box mfk).h
              (drawingsStages m kl fh am mk fm box mfk).w
       else drawingsStages m kl fh am mk fm box mfk) := by
    unfold postprocessMaskForDrawings
    rw [if_neg hA, if_neg hB]
  constructor
  · intro hg y x
    rw [hO, if_pos hg]
    exact zeros_get _ _ y x
  · intro hg
    rw [hO, if_neg hg]

/-- A 5×5 mask with a single centre pixel. -/
def c7Small : Mask := Mask.ofFn 5 5 fun y x => y == 2 && x == 2

theorem C7_min_area_guard_final_area_witness :
    (¬ c7Small.h * c7Small.w = 0 ∧ ¬ c7Small.count = 0 ∧
     ((drawingsStages c7Small false false false 0 FillMethod.convexHull none 5).count : ℚ) <
       ((c7Small.h * c7Small.w : Nat) : ℚ) * (1 / 2)) ∧
    (∀ y x, (postprocessMaskForDrawings c7Small false false false 0 (1 / 2)
      FillMethod.convexHull none 5).get y x = false) := by
  have hg : ((drawingsStages c7Small false false false 0 FillMethod.convexHull none
      5).count : ℚ) < ((c7Small.h * c7Small.w : Nat) : ℚ) * (1 / 2) := by
    rw [show (drawingsStages c7Small false false false 0 FillMethod.convexHull none
      5).count = 1 from by decide, show c7Small.h = 5 from rfl,
      show c7Small.w = 5 from rfl]
    norm_num
  exact ⟨⟨by decide, by decide, hg⟩,
    (C7_min_area_guard_final_area c7Small false false false 0 (1 / 2) FillMethod.convexHull
      none 5 (by decide) (by decide)).1 hg⟩

/-! ## Claim C8: behaviour on malformed input -/

